import Mathlib

/-
Verification of the MARTe2 bit-field codec (Source/Core/BareMetal/L3Streams/
BitSetToInteger.h) and of the safe-shift utility (Source/Core/BareMetal/
L0Types/Shift.h).

Modelling conventions (shallow embedding):
* an unsigned machine integer of width `w` bits is a `Nat` smaller than
  `2 ^ w`; wrap-around of `<<` is an explicit `% 2 ^ w`;
* a signed machine integer of width `w` is an `Int` in
  `[-2 ^ (w-1), 2 ^ (w-1))`, or equivalently its two's-complement bit
  pattern (a `Nat` smaller than `2 ^ w`), with `toSigned` / `toUnsigned`
  converting between the two views;
* memory is a byte function `Nat → Nat` (byte offset to byte value, little
  endian, as on armv8); pointers are byte offsets into such a function;
* `MemoryOperationsHelper::Copy` into / out of a scratch integer is the
  little-endian `readBytesFrom` / `writeBytesAt`; in this model addresses
  are always valid so the copy succeeds (its failure branch in the source
  only reports an error and continues with the zeroed scratch).
-/

/-- Two's-complement value of the `w`-bit pattern `n` (meaningful for
`n < 2 ^ w`). -/
def toSigned (w n : Nat) : Int :=
  if n < 2 ^ (w - 1) then (n : Int) else (n : Int) - 2 ^ w

/-- `w`-bit two's-complement pattern of the integer `x` (reduction
modulo `2 ^ w`). -/
def toUnsigned (w : Nat) (x : Int) : Nat :=
  (x % ((2 : Int) ^ w)).toNat

/-- C signed right shift `number >> shift` on a `w`-bit pattern: the armv8
arithmetic shift, i.e. floor division of the two's-complement value by
`2 ^ shift`. -/
def asr (w n s : Nat) : Nat :=
  toUnsigned w (Int.fdiv (toSigned w n) (2 ^ s))

/-- `Shift::LogicalRightSafeShift` (Shift.h:187-199) for an unsigned type of
`w` bits: `uint8 bound = static_cast<uint8>(sizeof(T) * 8u)` is `w % 256`;
if `shift >= bound` the result is 0, otherwise the `LogicalRightShift`
overload for the unsigned type returns `number >> shift`. -/
def Shift.LogicalRightSafeShift (w x s : Nat) : Nat :=
  if w % 256 ≤ s then 0 else x >>> s

/-- `Shift::LogicalLeftSafeShift` (Shift.h:201-213) for an unsigned type of
`w` bits: `uint8 bound = sizeof(T) * 8u` is `w % 256`; `number << shift` on
an unsigned `w`-bit type wraps modulo `2 ^ w`. -/
def Shift.LogicalLeftSafeShift (w x s : Nat) : Nat :=
  if w % 256 ≤ s then 0 else (x <<< s) % 2 ^ w

/-- `Shift::MathematicRightSafeShift` (Shift.h:215-226) for an unsigned type
of `w` bits: `int bound = sizeof(T) * 8` does not truncate; `number >> shift`
on an unsigned type is the logical right shift. -/
def Shift.MathematicRightSafeShift (w x s : Nat) : Nat :=
  if w ≤ s then 0 else x >>> s

/-- `Shift::MathematicLeftSafeShift` (Shift.h:228-239) for an unsigned type
of `w` bits. -/
def Shift.MathematicLeftSafeShift (w x s : Nat) : Nat :=
  if w ≤ s then 0 else (x <<< s) % 2 ^ w

/-- `Shift::LogicalRightSafeShift` for a signed `w`-bit type: the private
`LogicalRightShift` overloads for int8..int64 (Shift.h:261-279) reinterpret
the operand as unsigned, shift, and convert the pattern back. -/
def Shift.LogicalRightSafeShiftSigned (w : Nat) (x : Int) (s : Nat) : Int :=
  if w % 256 ≤ s then 0 else toSigned w (toUnsigned w x >>> s)

/-- `Shift::LogicalLeftSafeShift` for a signed `w`-bit type: `number << shift`
operates on the two's-complement pattern modulo `2 ^ w`. -/
def Shift.LogicalLeftSafeShiftSigned (w : Nat) (x : Int) (s : Nat) : Int :=
  if w % 256 ≤ s then 0 else toSigned w ((toUnsigned w x <<< s) % 2 ^ w)

/-- `Shift::MathematicRightSafeShift` for a signed `w`-bit type:
`number >> shift` is the arithmetic (sign extending) shift. -/
def Shift.MathematicRightSafeShiftSigned (w : Nat) (x : Int) (s : Nat) : Int :=
  if w ≤ s then 0 else Int.fdiv x (2 ^ s)

/-- `Shift::MathematicLeftSafeShift` for a signed `w`-bit type. -/
def Shift.MathematicLeftSafeShiftSigned (w : Nat) (x : Int) (s : Nat) : Int :=
  if w ≤ s then 0 else toSigned w ((toUnsigned w x <<< s) % 2 ^ w)

/-- The `DoubleInteger<T2>` two-half extended integer, as the bit patterns of
its halves (each `< 2 ^ b` where `b` is the bit width of `T2`). -/
structure DoubleInteger where
  lower : Nat
  upper : Nat
deriving DecidableEq

/-- `Shift::LogicalRightShift` specialization for `DoubleInteger<T2>`
(Shift.h:281-326), in the branch where `T2` is signed
(`static_cast<T2>(-1) < 0`), with `b` the bit width of `T2`:
`>>` on the signed halves is the arithmetic shift `asr`;
`upper << (bitSize - shift)` wraps modulo `2 ^ b`; `upper < 0` is
`2 ^ (b-1) ≤ upper` on patterns and `static_cast<T2>(-1)` is the all-ones
pattern `2 ^ b - 1`. -/
def Shift.LogicalRightShiftDI (b : Nat) (number : DoubleInteger) (shift : Nat) :
    DoubleInteger :=
  if 0 < shift then
    let lower := number.lower
    let upper := number.upper
    if shift < b then
      let lowerA := asr b lower shift
      let lowerB := lowerA ||| ((upper <<< (b - shift)) % 2 ^ b)
      let upperA := asr b upper shift
      { lower := lowerB, upper := upperA }
    else
      let shiftR := shift - b
      let lowerA := asr b upper shiftR
      let upperA := if 2 ^ (b - 1) ≤ upper then 2 ^ b - 1 else 0
      { lower := lowerA, upper := upperA }
  else number

/-- Modelled from the spec sentences of claim C3 (the extended-precision
logical right shift as the specification describes it): the half shifts are
logical, with no sign propagation even for negative halves; for
`shift ≥ b` the new upper half is all-ones exactly when the old upper half
was negative. To be compared with `Shift.LogicalRightShiftDI`. -/
def logicalRightShiftDIspec (b : Nat) (number : DoubleInteger) (shift : Nat) :
    DoubleInteger :=
  if shift = 0 then number
  else if shift < b then
    { lower := (number.lower >>> shift) ||| ((number.upper <<< (b - shift)) % 2 ^ b),
      upper := number.upper >>> shift }
  else
    { lower := number.upper >>> (shift - b),
      upper := if 2 ^ (b - 1) ≤ number.upper then 2 ^ b - 1 else 0 }

/-- Little-endian value of the first `n` bytes of `mem`. -/
def readBytes (mem : Nat → Nat) : Nat → Nat
  | 0 => 0
  | n + 1 => readBytes mem n + mem n * 256 ^ n

/-- Little-endian value of the `n` bytes of `mem` at offsets
`off .. off+n-1` (the `Copy` of `n` bytes from address `mem + off` into a
zeroed scratch integer). -/
def readBytesFrom (mem : Nat → Nat) (off n : Nat) : Nat :=
  readBytes (fun i => mem (off + i)) n

/-- Write the `n` little-endian bytes of `v` at byte offsets
`off .. off+n-1` of `mem` (the `Copy` of `n` bytes from a scratch integer
back to address `mem + off`). -/
def writeBytesAt (mem : Nat → Nat) (off n v : Nat) : Nat → Nat :=
  fun i => if off ≤ i ∧ i < off + n then v / 256 ^ (i - off) % 256 else mem i

/-- Bit `p` of a byte memory (bit numbering little-endian within each byte,
as the codec's shifted accesses read it). -/
def bitOfMem (mem : Nat → Nat) (p : Nat) : Bool :=
  (mem (p / 8)).testBit (p % 8)

/-- The 8 bytes of an `int64` variable, little-endian (armv8). -/
def int64Mem (v : Int) : Nat → Nat :=
  fun i => (toUnsigned 64 v >>> (8 * i)) % 256

/-- The `size`-bit field of `mem` at bit offset `shift` within the storage
unit at byte offset `off` (the value a reader of that bit range observes). -/
def getField (mem : Nat → Nat) (off shift size : Nat) : Nat :=
  (readBytesFrom mem off ((size + shift + 7) / 8) >>> shift) &&& (2 ^ size - 1)

/-- `BSToBS` (BitSetToInteger.h:169-295) for a storage unit type `T` of `W`
bits: copy the `sSize`-bit field at bit `sShift` of the unit at byte offset
`sOff` of `src` into the `dSize`-bit field at bit `dShift` of the unit at
byte offset `dOff` of `dest`, with saturation / sign-extension.
`~x` on `W` bits is `(2 ^ W - 1) ^^^ x`; the two unsigned mask subtractions
agree with Nat subtraction at every use (in the narrowing branch
`sourceMask ≥ destinationMask >> 1`, in the widening branch
`destinationMask ≥ sourceMask`). -/
def BSToBS (W : Nat) (dest : Nat → Nat) (dOff dShift dSize : Nat) (dSigned : Bool)
    (src : Nat → Nat) (sOff sShift sSize : Nat) (sSigned : Bool) : Nat → Nat :=
  let dataSize := W
  let sourceMask := Shift.LogicalRightSafeShift W (2 ^ W - 1) (dataSize - sSize)
  let destinationMask := Shift.LogicalRightSafeShift W (2 ^ W - 1) (dataSize - dSize)
  let sourceSignMask := Shift.LogicalLeftSafeShift W 1 (sSize - 1)
  let destinationSignMask := Shift.LogicalLeftSafeShift W 1 (dSize - 1)
  let sourceByteSize := (sSize + sShift + 7) / 8
  let sourceCopy0 := readBytesFrom src sOff sourceByteSize
  let sourceCopy1 := Shift.LogicalRightSafeShift W sourceCopy0 sShift
  let sourceCopy2 := sourceCopy1 &&& sourceMask
  let signBit := sourceCopy2 &&& sourceSignMask
  let sourceIsNegative := sSigned && decide (signBit ≠ 0)
  let sourceCopy3 :=
    if sourceIsNegative then
      if !dSigned then 0
      else if dSize < sSize then
        let mask := sourceMask - Shift.LogicalRightSafeShift W destinationMask 1
        if sourceCopy2 &&& mask ≠ mask then destinationSignMask else sourceCopy2
      else
        let mask := destinationMask - sourceMask
        sourceCopy2 ||| mask
    else
      let maxPositiveValue :=
        if dSigned then Shift.LogicalRightSafeShift W destinationMask 1
        else destinationMask
      if maxPositiveValue < sourceCopy2 then maxPositiveValue else sourceCopy2
  let sourceCopy4 := Shift.LogicalLeftSafeShift W sourceCopy3 dShift
  let destinationMask2 := Shift.LogicalLeftSafeShift W destinationMask dShift
  let destinationMask3 := (2 ^ W - 1) ^^^ destinationMask2
  let destinationByteSize := (dSize + dShift + 7) / 8
  let destinationCopy := readBytesFrom dest dOff destinationByteSize
  let destinationMask4 := destinationMask3 &&& destinationCopy
  let sourceCopy5 := sourceCopy4 ||| destinationMask4
  writeBytesAt dest dOff destinationByteSize sourceCopy5

/-- The saturation / sign-extension transform at the core of `BSToBS`
(BitSetToInteger.h:219-267), applied to the isolated source value `v`, with
the masks written in evaluated form (`sourceMask = 2^sSize - 1`,
`destinationMask = 2^dSize - 1`, `sourceSignMask = 2^(sSize-1)`,
`destinationSignMask = 2^(dSize-1)`,
`destinationMask >> 1 = 2^(dSize-1) - 1`). `BSToBS_getField` below proves
that `BSToBS` stores exactly this value, truncated to the field width, in
the destination field. -/
def BSToBSvalue (dSize : Nat) (dSig : Bool) (sSize : Nat) (sSig : Bool)
    (v : Nat) : Nat :=
  if sSig && decide (v &&& 2 ^ (sSize - 1) ≠ 0) then
    if !dSig then 0
    else if dSize < sSize then
      if v &&& ((2 ^ sSize - 1) - (2 ^ (dSize - 1) - 1))
          ≠ (2 ^ sSize - 1) - (2 ^ (dSize - 1) - 1) then
        2 ^ (dSize - 1)
      else v
    else v ||| ((2 ^ dSize - 1) - (2 ^ sSize - 1))
  else
    if (if dSig then 2 ^ (dSize - 1) - 1 else 2 ^ dSize - 1) < v then
      (if dSig then 2 ^ (dSize - 1) - 1 else 2 ^ dSize - 1)
    else v

/-- Result of `BitSetToBitSet`: the return flag, the updated destination
memory, and the in/out pointer (byte offset) / bit-shift cursors of the two
buffers. -/
structure BitSetResult where
  ret : Bool
  dest : Nat → Nat
  dOff : Nat
  dShift : Nat
  sOff : Nat
  sShift : Nat

/-- `BitSetToBitSet` (BitSetToInteger.h:297-396) for a storage unit type `T`
of `g` bits (`g ∈ {8,16,32,64,128}` for the instantiable types): normalize
both bit shifts to `[0, g)` advancing the byte offsets (`granularityShift`
is `3 + log2(sizeof(T))`, computed by the source's halving loop, and the
`index` computation uses the uint8 `LogicalRightSafeShift`; `&source[index]`
advances by `index * sizeof(T)` bytes); select the smallest granularity in
{8,16,32,64,128} that accommodates both bit-range ends and is at least `g`;
delegate to `BSToBS` at that granularity, or fail; finally advance both
uint8 shift cursors by the respective bit sizes (uint8 wrap-around is
`% 256`). -/
def BitSetToBitSet (g : Nat) (dest : Nat → Nat) (dOff dShift dSize : Nat)
    (dSigned : Bool) (src : Nat → Nat) (sOff sShift sSize : Nat)
    (sSigned : Bool) : BitSetResult :=
  let granularityMask := g - 1
  let granularityShift := 3 + Nat.log2 (g / 8)
  let sOff2 :=
    if g ≤ sShift then
      sOff + Shift.LogicalRightSafeShift 8 sShift granularityShift * (g / 8)
    else sOff
  let sShift2 := if g ≤ sShift then sShift &&& granularityMask else sShift
  let dOff2 :=
    if g ≤ dShift then
      dOff + Shift.LogicalRightSafeShift 8 dShift granularityShift * (g / 8)
    else dOff
  let dShift2 := if g ≤ dShift then dShift &&& granularityMask else dShift
  let sourceBitEnd := sShift2 + sSize
  let destinationBitEnd := dShift2 + dSize
  let step : Bool × (Nat → Nat) :=
    if sourceBitEnd ≤ 8 ∧ destinationBitEnd ≤ 8 ∧ g = 8 then
      (true, BSToBS 8 dest dOff2 dShift2 dSize dSigned src sOff2 sShift2 sSize sSigned)
    else if sourceBitEnd ≤ 16 ∧ destinationBitEnd ≤ 16 ∧ g ≤ 16 then
      (true, BSToBS 16 dest dOff2 dShift2 dSize dSigned src sOff2 sShift2 sSize sSigned)
    else if sourceBitEnd ≤ 32 ∧ destinationBitEnd ≤ 32 ∧ g ≤ 32 then
      (true, BSToBS 32 dest dOff2 dShift2 dSize dSigned src sOff2 sShift2 sSize sSigned)
    else if sourceBitEnd ≤ 64 ∧ destinationBitEnd ≤ 64 ∧ g ≤ 64 then
      (true, BSToBS 64 dest dOff2 dShift2 dSize dSigned src sOff2 sShift2 sSize sSigned)
    else if sourceBitEnd ≤ 128 ∧ destinationBitEnd ≤ 128 ∧ g ≤ 128 then
      (true, BSToBS 128 dest dOff2 dShift2 dSize dSigned src sOff2 sShift2 sSize sSigned)
    else
      (false, dest)
  { ret := step.1, dest := step.2, dOff := dOff2, dShift := (dShift2 + dSize) % 256,
    sOff := sOff2, sShift := (sShift2 + sSize) % 256 }

/-- `BitSetToInteger` (BitSetToInteger.h:398-413): the destination integer
`T2` (of `destBits = sizeof(T2) * 8` bits, its memory starting at byte 0 of
`dest`) is viewed as the destination bit field at offset 0 with shift 0;
`destSigned` is the sign detection `static_cast<T2>(-1) < 0`. -/
def BitSetToInteger (g : Nat) (dest : Nat → Nat) (destBits : Nat)
    (destSigned : Bool) (src : Nat → Nat) (sOff sShift sSize : Nat)
    (sSigned : Bool) : BitSetResult :=
  BitSetToBitSet g dest 0 0 destBits destSigned src sOff sShift sSize sSigned

/-- `IntegerToBitSet` (BitSetToInteger.h:415-430): the source integer `T2`
(of `srcBits = sizeof(T2) * 8` bits, its memory starting at byte 0 of `src`)
is viewed as the source bit field at offset 0 with shift 0; `srcSigned` is
the sign detection `static_cast<T2>(-1) < 0`. -/
def IntegerToBitSet (g : Nat) (dest : Nat → Nat) (dOff dShift dSize : Nat)
    (dSigned : Bool) (src : Nat → Nat) (srcBits : Nat) (srcSigned : Bool) :
    BitSetResult :=
  BitSetToBitSet g dest dOff dShift dSize dSigned src 0 0 srcBits srcSigned

/-! Basic facts about the safe shifts (the instantiable storage types have
`w ≤ 128 < 256`, so the uint8 bound never truncates). -/

theorem lrss_eval (w x s : Nat) (hw : w ≤ 128) (hs : s < w) :
    Shift.LogicalRightSafeShift w x s = x >>> s := by
  unfold Shift.LogicalRightSafeShift
  rw [Nat.mod_eq_of_lt (by omega)]
  exact if_neg (by omega)

theorem llss_eval (w x s : Nat) (hw : w ≤ 128) (hs : s < w) :
    Shift.LogicalLeftSafeShift w x s = (x <<< s) % 2 ^ w := by
  unfold Shift.LogicalLeftSafeShift
  rw [Nat.mod_eq_of_lt (by omega)]
  exact if_neg (by omega)

/-- Claim C4: for every supported integer type (any bit width `w ≤ 128`,
unsigned value `x` or signed value `y`) and every uint8 shift amount
`s ≥ w`, all four safe-shift variants return the zero value of the type,
in both the unsigned and the signed instantiations. -/
theorem C4_safeShift_zero (w s x : Nat) (y : Int) (hw : w ≤ 128) (hs : w ≤ s)
    (hs255 : s ≤ 255) :
    Shift.LogicalRightSafeShift w x s = 0 ∧
    Shift.LogicalLeftSafeShift w x s = 0 ∧
    Shift.MathematicRightSafeShift w x s = 0 ∧
    Shift.MathematicLeftSafeShift w x s = 0 ∧
    Shift.LogicalRightSafeShiftSigned w y s = 0 ∧
    Shift.LogicalLeftSafeShiftSigned w y s = 0 ∧
    Shift.MathematicRightSafeShiftSigned w y s = 0 ∧
    Shift.MathematicLeftSafeShiftSigned w y s = 0 := by
  have h : w % 256 ≤ s := by
    rw [Nat.mod_eq_of_lt (by omega)]; exact hs
  unfold Shift.LogicalRightSafeShift Shift.LogicalLeftSafeShift
    Shift.MathematicRightSafeShift Shift.MathematicLeftSafeShift
    Shift.LogicalRightSafeShiftSigned Shift.LogicalLeftSafeShiftSigned
    Shift.MathematicRightSafeShiftSigned Shift.MathematicLeftSafeShiftSigned
  simp [h, hs]

/-- Witness for C4 at `w = 8`, `s = 8`, `x = 5`, `y = -7`. -/
theorem C4_witness :
    Shift.LogicalRightSafeShift 8 5 8 = 0 ∧
    Shift.LogicalLeftSafeShift 8 5 8 = 0 ∧
    Shift.MathematicRightSafeShift 8 5 8 = 0 ∧
    Shift.MathematicLeftSafeShift 8 5 8 = 0 ∧
    Shift.LogicalRightSafeShiftSigned 8 (-7) 8 = 0 ∧
    Shift.LogicalLeftSafeShiftSigned 8 (-7) 8 = 0 ∧
    Shift.MathematicRightSafeShiftSigned 8 (-7) 8 = 0 ∧
    Shift.MathematicLeftSafeShiftSigned 8 (-7) 8 = 0 :=
  C4_safeShift_zero 8 8 5 (-7) (by decide) (by decide) (by decide)

/-- Claim C10: on every supported integer type (width `w ≤ 128`, unsigned or
signed) and every uint8 shift amount `s ≤ 255`, `LogicalLeftSafeShift` and
`MathematicLeftSafeShift` are extensionally the same function: both guard
`s ≥ w` with a zero result and otherwise perform the plain native left
shift. -/
theorem C10_leftShift_variants_agree (w x s : Nat) (y : Int) (hw : w ≤ 128)
    (hs255 : s ≤ 255) :
    Shift.LogicalLeftSafeShift w x s = Shift.MathematicLeftSafeShift w x s ∧
    Shift.LogicalLeftSafeShiftSigned w y s =
      Shift.MathematicLeftSafeShiftSigned w y s := by
  unfold Shift.LogicalLeftSafeShift Shift.MathematicLeftSafeShift
    Shift.LogicalLeftSafeShiftSigned Shift.MathematicLeftSafeShiftSigned
  rw [Nat.mod_eq_of_lt (show w < 256 by omega)]
  exact ⟨rfl, rfl⟩

/-- Witness for C10 at `w = 16`, `s = 3`, `x = 200`, `y = -5`. -/
theorem C10_witness :
    Shift.LogicalLeftSafeShift 16 200 3 = Shift.MathematicLeftSafeShift 16 200 3 ∧
    Shift.LogicalLeftSafeShiftSigned 16 (-5) 3 =
      Shift.MathematicLeftSafeShiftSigned 16 (-5) 3 :=
  C10_leftShift_variants_agree 16 200 3 (-5) (by decide) (by decide)

/-! Arithmetic right shift on patterns: closed forms and bit
characterization. -/

theorem asr_eq_of_lt (w n s : Nat) (hn : n < 2 ^ (w - 1)) (hs : s ≤ w) :
    asr w n s = n >>> s := by
  unfold asr toSigned toUnsigned
  rw [if_pos hn, Int.fdiv_eq_ediv _ (by positivity)]
  have h1 : ((2 : Int) ^ s) = ((2 ^ s : Nat) : Int) := by push_cast; ring
  have hcw : ((2 : Int) ^ w) = ((2 ^ w : Nat) : Int) := by push_cast; ring
  rw [h1, ← Int.ofNat_ediv, Nat.shiftRight_eq_div_pow, hcw]
  have h2 : (n / 2 ^ s : Nat) < 2 ^ w := by
    have h3 : (n / 2 ^ s : Nat) ≤ n := Nat.div_le_self _ _
    have hnw : n < 2 ^ w := lt_of_lt_of_le hn (Nat.pow_le_pow_right (by omega) (by omega))
    omega
  rw [Int.emod_eq_of_lt (by positivity) (by exact_mod_cast h2)]
  exact Int.toNat_ofNat _

theorem asr_eq_of_ge (w n s : Nat) (hn1 : 2 ^ (w - 1) ≤ n) (hn2 : n < 2 ^ w)
    (hs : s ≤ w) :
    asr w n s = (n >>> s) + (2 ^ w - 2 ^ (w - s)) := by
  have hq := Nat.div_add_mod n (2 ^ s)
  have hr2 : n % 2 ^ s < 2 ^ s := Nat.mod_lt _ (by positivity)
  have hqlt : n / 2 ^ s < 2 ^ (w - s) := by
    rw [Nat.div_lt_iff_lt_mul (by positivity), ← pow_add]
    have hxx : w - s + s = w := by omega
    rw [hxx]; exact hn2
  have hpows : (2 ^ (w - s) : Nat) * 2 ^ s = 2 ^ w := by
    rw [← pow_add]; congr 1; omega
  have hws : (2 : Nat) ^ (w - s) ≤ 2 ^ w := Nat.pow_le_pow_right (by omega) (by omega)
  unfold asr toSigned toUnsigned
  rw [if_neg (by omega), Int.fdiv_eq_ediv _ (by positivity)]
  have hcw : ((2 : Int) ^ w) = ((2 ^ w : Nat) : Int) := by push_cast; ring
  have hcs : ((2 : Int) ^ s) = ((2 ^ s : Nat) : Int) := by push_cast; ring
  rw [hcw, hcs]
  have e1 : ((2 ^ s : Nat) : Int) * ((n / 2 ^ s : Nat) : Int) + ((n % 2 ^ s : Nat) : Int)
      = (n : Int) := by exact_mod_cast hq
  have e2 : ((2 ^ (w - s) : Nat) : Int) * ((2 ^ s : Nat) : Int) = ((2 ^ w : Nat) : Int) := by
    exact_mod_cast hpows
  have h0 : (0 : Int) < ((2 ^ s : Nat) : Int) := by
    exact_mod_cast (show 0 < 2 ^ s by positivity)
  have hdiv : ((n : Int) - ((2 ^ w : Nat) : Int)) / ((2 ^ s : Nat) : Int)
      = ((n / 2 ^ s : Nat) : Int) - ((2 ^ (w - s) : Nat) : Int) := by
    refine ((@Int.ediv_emod_unique ((n : Int) - ((2 ^ w : Nat) : Int))
      ((2 ^ s : Nat) : Int) ((n % 2 ^ s : Nat) : Int)
      (((n / 2 ^ s : Nat) : Int) - ((2 ^ (w - s) : Nat) : Int)) h0).mpr ⟨?_, ?_, ?_⟩).1
    · calc ((n % 2 ^ s : Nat) : Int)
          + ((2 ^ s : Nat) : Int) * (((n / 2 ^ s : Nat) : Int) - ((2 ^ (w - s) : Nat) : Int))
          = (((2 ^ s : Nat) : Int) * ((n / 2 ^ s : Nat) : Int) + ((n % 2 ^ s : Nat) : Int))
            - ((2 ^ (w - s) : Nat) : Int) * ((2 ^ s : Nat) : Int) := by ring
      _ = (n : Int) - ((2 ^ w : Nat) : Int) := by rw [e1, e2]
    · positivity
    · exact_mod_cast hr2
  rw [hdiv]
  have hmod : (((n / 2 ^ s : Nat) : Int) - ((2 ^ (w - s) : Nat) : Int)) % ((2 ^ w : Nat) : Int)
      = ((n / 2 ^ s : Nat) : Int) + ((2 ^ w : Nat) : Int) - ((2 ^ (w - s) : Nat) : Int) := by
    have e3 : (((n / 2 ^ s : Nat) : Int) - ((2 ^ (w - s) : Nat) : Int))
        = (((n / 2 ^ s : Nat) : Int) + ((2 ^ w : Nat) : Int) - ((2 ^ (w - s) : Nat) : Int))
          + ((2 ^ w : Nat) : Int) * (-1) := by ring
    have hcast1 : ((2 ^ (w - s) : Nat) : Int) ≤ ((2 ^ w : Nat) : Int) := by exact_mod_cast hws
    have hcast2 : ((n / 2 ^ s : Nat) : Int) < ((2 ^ (w - s) : Nat) : Int) := by
      exact_mod_cast hqlt
    have hcast3 : (0 : Int) ≤ ((n / 2 ^ s : Nat) : Int) := by positivity
    have hb1 : (0 : Int)
        ≤ ((n / 2 ^ s : Nat) : Int) + ((2 ^ w : Nat) : Int) - ((2 ^ (w - s) : Nat) : Int) := by
      linarith
    have hb2 : ((n / 2 ^ s : Nat) : Int) + ((2 ^ w : Nat) : Int) - ((2 ^ (w - s) : Nat) : Int)
        < ((2 ^ w : Nat) : Int) := by
      linarith
    rw [e3, Int.add_mul_emod_self_left, Int.emod_eq_of_lt hb1 hb2]
  rw [hmod, Nat.shiftRight_eq_div_pow]
  have e4 : (((n / 2 ^ s : Nat) : Int) + ((2 ^ w : Nat) : Int) - ((2 ^ (w - s) : Nat) : Int))
      = ((n / 2 ^ s + (2 ^ w - 2 ^ (w - s)) : Nat) : Int) := by
    rw [Nat.cast_add, Nat.cast_sub hws]
    ring
  rw [e4]
  exact Int.toNat_ofNat _

theorem asr_testBit (w n s i : Nat) (hn : n < 2 ^ w) (hs : s ≤ w) (hi : i < w) :
    (asr w n s).testBit i = n.testBit (min (i + s) (w - 1)) := by
  rcases Nat.lt_or_ge n (2 ^ (w - 1)) with hlt | hge
  · rw [asr_eq_of_lt w n s hlt hs, Nat.testBit_shiftRight]
    rcases Nat.lt_or_ge (i + s) w with hc | hc
    · have : min (i + s) (w - 1) = i + s := by omega
      rw [this, Nat.add_comm s i]
    · have h1 : min (i + s) (w - 1) = w - 1 := by omega
      rw [h1]
      have h2 : n.testBit (s + i) = false :=
        Nat.testBit_lt_two_pow (lt_of_lt_of_le hlt
          (Nat.pow_le_pow_right (by omega) (by omega)))
      have h3 : n.testBit (w - 1) = false :=
        Nat.testBit_lt_two_pow hlt
      rw [h2, h3]
  · rw [asr_eq_of_ge w n s hge hn hs]
    have hrepr : (n >>> s) + (2 ^ w - 2 ^ (w - s)) = 2 ^ (w - s) * (2 ^ s - 1) + n >>> s := by
      have h4 : (2 : Nat) ^ (w - s) * 2 ^ s = 2 ^ w := by rw [← pow_add]; congr 1; omega
      have h5 : (1 : Nat) ≤ 2 ^ s := Nat.one_le_two_pow
      have h6 : (2 : Nat) ^ (w - s) ≤ 2 ^ w := Nat.pow_le_pow_right (by omega) (by omega)
      rw [Nat.mul_sub]
      omega
    have hqlt : n >>> s < 2 ^ (w - s) := by
      rw [Nat.shiftRight_eq_div_pow, Nat.div_lt_iff_lt_mul (by positivity)]
      calc n < 2 ^ w := hn
      _ = 2 ^ (w - s) * 2 ^ s := by rw [← pow_add]; congr 1; omega
    rw [hrepr, Nat.testBit_mul_pow_two_add _ hqlt]
    rcases Nat.lt_or_ge i (w - s) with hc | hc
    · rw [if_pos hc, Nat.testBit_shiftRight]
      have : min (i + s) (w - 1) = s + i := by omega
      rw [this]
    · rw [if_neg (by omega)]
      have h7 : min (i + s) (w - 1) = w - 1 := by omega
      have h8 : (2 ^ s - 1).testBit (i - (w - s)) = true := by
        rw [Nat.testBit_two_pow_sub_one]
        simp only [decide_eq_true_eq]
        omega
      have h9 : n.testBit (w - 1) = true := by
        have hdiv : n / 2 ^ (w - 1) = 1 := by
          have e1 : (2 : Nat) ^ w = 2 ^ (w - 1) * 2 := by
            rw [← pow_succ]; congr 1; omega
          have l1 : 1 ≤ n / 2 ^ (w - 1) := (Nat.one_le_div_iff (by positivity)).mpr hge
          have l2 : n / 2 ^ (w - 1) < 2 := by
            rw [Nat.div_lt_iff_lt_mul (by positivity)]
            omega
          omega
        rw [Nat.testBit_to_div_mod, hdiv]
        rfl
      rw [h7, h8, h9]

/-- Counterexample to claim C3 as stated: for half width 8, value
`(lower, upper) = (0, 255)` (upper half is the negative value -1) and
shift 1, the source computes the new halves with the native signed `>>`
(arithmetic, sign propagating), so the new upper half is 255 and not the
logical `255 >>> 1 = 127` required by the claim. -/
theorem C3_counterexample :
    Shift.LogicalRightShiftDI 8 ⟨0, 255⟩ 1 ≠ logicalRightShiftDIspec 8 ⟨0, 255⟩ 1 := by
  decide

/-- Claim C3 (amended): for the extended-precision right shift with signed
half type of width `b`: `shift = 0` is the identity; when
`0 < shift < b`, the new lower half is (old lower *arithmetically* shifted
right by `shift`) OR (old upper shifted left by `b - shift`), and the new
upper half is the old upper *arithmetically* shifted right by `shift`;
when `shift ≥ b`, with the shift reduced by `b`, the new lower half is the
old upper *arithmetically* shifted right by the reduced shift and the new
upper half is all-ones if the old upper was negative and zero otherwise.
The half shifts propagate the sign of a negative half (bit `i` of an
arithmetic shift by `s` is bit `min (i+s) (b-1)` of the operand); they are
not logical. -/
theorem C3_extendedShift_amended (b lo up s : Nat) (hb : 0 < b)
    (hlo : lo < 2 ^ b) (hup : up < 2 ^ b) :
    (s = 0 → Shift.LogicalRightShiftDI b ⟨lo, up⟩ s = ⟨lo, up⟩) ∧
    (0 < s → s < b → ∀ i, i < b →
      ((Shift.LogicalRightShiftDI b ⟨lo, up⟩ s).upper.testBit i
          = up.testBit (min (i + s) (b - 1)) ∧
       (Shift.LogicalRightShiftDI b ⟨lo, up⟩ s).lower.testBit i
          = (lo.testBit (min (i + s) (b - 1))
             || (decide (b - s ≤ i) && up.testBit (i - (b - s)))))) ∧
    (b ≤ s → s < 2 * b →
      ((Shift.LogicalRightShiftDI b ⟨lo, up⟩ s).upper
          = (if 2 ^ (b - 1) ≤ up then 2 ^ b - 1 else 0) ∧
       ∀ i, i < b → (Shift.LogicalRightShiftDI b ⟨lo, up⟩ s).lower.testBit i
          = up.testBit (min (i + (s - b)) (b - 1)))) := by
  refine ⟨?_, ?_, ?_⟩
  · intro h0
    simp [Shift.LogicalRightShiftDI, h0]
  · intro hs0 hsb i hib
    have hru : Shift.LogicalRightShiftDI b ⟨lo, up⟩ s
        = ⟨asr b lo s ||| ((up <<< (b - s)) % 2 ^ b), asr b up s⟩ := by
      unfold Shift.LogicalRightShiftDI
      rw [if_pos hs0, if_pos hsb]
    rw [hru]
    constructor
    · exact asr_testBit b up s i hup (by omega) hib
    · rw [Nat.testBit_or, asr_testBit b lo s i hlo (by omega) hib,
        Nat.testBit_mod_two_pow, Nat.testBit_shiftLeft]
      have hd : decide (i < b) = true := by simp [hib]
      rw [hd, Bool.true_and]
  · intro hbs hs2b
    have hs0 : 0 < s := by omega
    have hru : Shift.LogicalRightShiftDI b ⟨lo, up⟩ s
        = ⟨asr b up (s - b), if 2 ^ (b - 1) ≤ up then 2 ^ b - 1 else 0⟩ := by
      unfold Shift.LogicalRightShiftDI
      rw [if_pos hs0, if_neg (by omega)]
    rw [hru]
    exact ⟨rfl, fun i hib => asr_testBit b up (s - b) i hup (by omega) hib⟩

/-- Witness for the amended C3 at `b = 8`, `(lower, upper) = (0, 255)`,
`shift = 1`. -/
theorem C3_witness :
    ((1 : Nat) = 0 → Shift.LogicalRightShiftDI 8 ⟨0, 255⟩ 1 = ⟨0, 255⟩) ∧
    (0 < 1 → 1 < 8 → ∀ i, i < 8 →
      ((Shift.LogicalRightShiftDI 8 ⟨0, 255⟩ 1).upper.testBit i
          = Nat.testBit 255 (min (i + 1) (8 - 1)) ∧
       (Shift.LogicalRightShiftDI 8 ⟨0, 255⟩ 1).lower.testBit i
          = (Nat.testBit 0 (min (i + 1) (8 - 1))
             || (decide (8 - 1 ≤ i) && Nat.testBit 255 (i - (8 - 1)))))) ∧
    (8 ≤ 1 → 1 < 2 * 8 →
      ((Shift.LogicalRightShiftDI 8 ⟨0, 255⟩ 1).upper
          = (if 2 ^ (8 - 1) ≤ 255 then 2 ^ 8 - 1 else 0) ∧
       ∀ i, i < 8 → (Shift.LogicalRightShiftDI 8 ⟨0, 255⟩ 1).lower.testBit i
          = Nat.testBit 255 (min (i + (1 - 8)) (8 - 1)))) :=
  C3_extendedShift_amended 8 0 255 1 (by decide) (by decide) (by decide)

/-! Byte-memory lemmas. -/

theorem readBytes_congr (f g : Nat → Nat) (n : Nat) (h : ∀ i, i < n → f i = g i) :
    readBytes f n = readBytes g n := by
  induction n with
  | zero => rfl
  | succ m ih =>
    unfold readBytes
    rw [ih (fun i hi => h i (by omega)), h m (by omega)]

theorem readBytes_div_mod (v : Nat) (n : Nat) :
    readBytes (fun i => v / 256 ^ i % 256) n = v % 256 ^ n := by
  induction n with
  | zero => simp [readBytes, Nat.mod_one]
  | succ m ih =>
    unfold readBytes
    rw [ih, Nat.mod_pow_succ]
    ring

theorem readBytesFrom_writeBytesAt (mem : Nat → Nat) (off n v : Nat) :
    readBytesFrom (writeBytesAt mem off n v) off n = v % 256 ^ n := by
  unfold readBytesFrom
  rw [readBytes_congr _ (fun i => v / 256 ^ i % 256) n ?_, readBytes_div_mod]
  intro i hi
  unfold writeBytesAt
  rw [if_pos (by omega), Nat.add_sub_cancel_left]

theorem writeBytesAt_frame (mem : Nat → Nat) (off n v i : Nat)
    (h : i < off ∨ off + n ≤ i) : writeBytesAt mem off n v i = mem i := by
  unfold writeBytesAt
  rw [if_neg (by omega)]

theorem pow256_eq (m : Nat) : (256 : Nat) ^ m = 2 ^ (8 * m) := by
  rw [pow_mul]; norm_num

theorem byte_testBit (v k j : Nat) (hj : j < 8) :
    (v / 256 ^ k % 256).testBit j = v.testBit (8 * k + j) := by
  have h1 : (256 : Nat) ^ k = 2 ^ (8 * k) := pow256_eq k
  have h2 : (256 : Nat) = 2 ^ 8 := by norm_num
  rw [h1, h2, ← Nat.shiftRight_eq_div_pow, Nat.testBit_mod_two_pow,
    Nat.testBit_shiftRight]
  simp [hj]

theorem bitOfMem_writeBytesAt_zero (mem : Nat → Nat) (n v p : Nat) :
    bitOfMem (writeBytesAt mem 0 n v) p
      = if p < 8 * n then v.testBit p else bitOfMem mem p := by
  have hp8 : p % 8 < 8 := Nat.mod_lt _ (by omega)
  rcases Nat.lt_or_ge p (8 * n) with h | h
  · have hbyte : writeBytesAt mem 0 n v (p / 8) = v / 256 ^ (p / 8) % 256 := by
      unfold writeBytesAt
      have hc : 0 ≤ p / 8 ∧ p / 8 < 0 + n := ⟨Nat.zero_le _, by omega⟩
      rw [if_pos hc, Nat.sub_zero]
    unfold bitOfMem
    rw [hbyte, byte_testBit v (p / 8) (p % 8) hp8, if_pos h]
    congr 1
    omega
  · have hbyte : writeBytesAt mem 0 n v (p / 8) = mem (p / 8) := by
      unfold writeBytesAt
      rw [if_neg (by omega)]
    unfold bitOfMem
    rw [hbyte, if_neg (by omega)]

theorem shiftRight_and_mod (x m s t : Nat) (h : s + t ≤ m) :
    ((x % 2 ^ m) >>> s) &&& (2 ^ t - 1) = (x >>> s) &&& (2 ^ t - 1) := by
  apply Nat.eq_of_testBit_eq
  intro i
  simp only [Nat.testBit_and, Nat.testBit_shiftRight, Nat.testBit_mod_two_pow,
    Nat.testBit_two_pow_sub_one]
  rcases Nat.lt_or_ge i t with hi | hi
  · have : s + i < m := by omega
    simp [this]
  · simp [show ¬(i < t) by omega]

theorem getField_writeBytesAt (mem : Nat → Nat) (off dShift dSize v : Nat)
    (h : dShift + dSize ≤ 8 * ((dSize + dShift + 7) / 8)) :
    getField (writeBytesAt mem off ((dSize + dShift + 7) / 8) v) off dShift dSize
      = (v >>> dShift) &&& (2 ^ dSize - 1) := by
  unfold getField
  rw [readBytesFrom_writeBytesAt, pow256_eq, shiftRight_and_mod _ _ _ _ (by omega)]

/-! Mask evaluation lemmas. -/

theorem allOnes_shiftRight (W k : Nat) (h : k ≤ W) :
    (2 ^ W - 1) >>> k = 2 ^ (W - k) - 1 := by
  apply Nat.eq_of_testBit_eq
  intro i
  simp only [Nat.testBit_shiftRight, Nat.testBit_two_pow_sub_one]
  by_cases hc : i < W - k
  · simp [hc, show k + i < W by omega]
  · simp [hc, show ¬(k + i < W) by omega]

theorem one_shiftLeft_mod (W k : Nat) (h : k < W) :
    (1 <<< k) % 2 ^ W = 2 ^ k := by
  rw [Nat.shiftLeft_eq, one_mul, Nat.mod_eq_of_lt (Nat.pow_lt_pow_right (by omega) h)]

/-- The field of the merged value written back by `BSToBS`: the complemented
positioned destination mask wipes the field bits of the old destination
value, so the extracted field is the scratch value truncated to the field
width. -/
theorem extract_merge (W dShift dSize scratch dc : Nat) (h : dShift + dSize ≤ W) :
    ((((scratch <<< dShift) % 2 ^ W) |||
      (((2 ^ W - 1) ^^^ (((2 ^ dSize - 1) <<< dShift) % 2 ^ W)) &&& dc)) >>> dShift)
        &&& (2 ^ dSize - 1) = scratch % 2 ^ dSize := by
  rw [← Nat.and_pow_two_sub_one_eq_mod scratch dSize]
  apply Nat.eq_of_testBit_eq
  intro i
  simp only [Nat.testBit_and, Nat.testBit_or, Nat.testBit_shiftRight,
    Nat.testBit_mod_two_pow, Nat.testBit_xor, Nat.testBit_shiftLeft,
    Nat.testBit_two_pow_sub_one]
  rcases Nat.lt_or_ge i dSize with hi | hi
  · have h1 : dShift + i < W := by omega
    have h2 : dShift + i ≥ dShift := by omega
    have h3 : dShift + i - dShift = i := by omega
    simp [h1, h2, h3, hi]
  · simp [show ¬(i < dSize) by omega]

/-- The destination field written by `BSToBS` is the saturation /
sign-extension transform of the isolated source field, truncated to the
destination field width. -/
theorem BSToBS_getField (W : Nat) (dest src : Nat → Nat)
    (dOff dShift dSize sOff sShift sSize : Nat) (dSig sSig : Bool)
    (hW8 : 8 ≤ W) (hWle : W ≤ 128) (hd1 : 1 ≤ dSize) (hd2 : dShift + dSize ≤ W)
    (hs1 : 1 ≤ sSize) (hs2 : sShift + sSize ≤ W) :
    getField (BSToBS W dest dOff dShift dSize dSig src sOff sShift sSize sSig)
        dOff dShift dSize
      = BSToBSvalue dSize dSig sSize sSig
          ((readBytesFrom src sOff ((sSize + sShift + 7) / 8) >>> sShift)
            &&& (2 ^ sSize - 1)) % 2 ^ dSize := by
  have hnB : dShift + dSize ≤ 8 * ((dSize + dShift + 7) / 8) := by omega
  have hMaskS : Shift.LogicalRightSafeShift W (2 ^ W - 1) (W - sSize)
      = 2 ^ sSize - 1 := by
    rw [lrss_eval W _ _ hWle (by omega), allOnes_shiftRight W _ (by omega)]
    congr 2
    omega
  have hMaskD : Shift.LogicalRightSafeShift W (2 ^ W - 1) (W - dSize)
      = 2 ^ dSize - 1 := by
    rw [lrss_eval W _ _ hWle (by omega), allOnes_shiftRight W _ (by omega)]
    congr 2
    omega
  have hSignS : Shift.LogicalLeftSafeShift W 1 (sSize - 1) = 2 ^ (sSize - 1) := by
    rw [llss_eval W _ _ hWle (by omega), one_shiftLeft_mod W _ (by omega)]
  have hSignD : Shift.LogicalLeftSafeShift W 1 (dSize - 1) = 2 ^ (dSize - 1) := by
    rw [llss_eval W _ _ hWle (by omega), one_shiftLeft_mod W _ (by omega)]
  have hHalf : Shift.LogicalRightSafeShift W (2 ^ dSize - 1) 1
      = 2 ^ (dSize - 1) - 1 := by
    rw [lrss_eval W _ _ hWle (by omega), allOnes_shiftRight dSize 1 (by omega)]
  simp only [BSToBS]
  rw [hMaskS, hMaskD, hSignS, hSignD, hHalf,
    lrss_eval W (readBytesFrom src sOff ((sSize + sShift + 7) / 8)) sShift hWle
      (by omega),
    llss_eval W (2 ^ dSize - 1) dShift hWle (by omega),
    llss_eval W _ dShift hWle (by omega),
    getField_writeBytesAt dest dOff dShift dSize _ hnB,
    extract_merge W dShift dSize _ _ hd2]
  rfl

/-! Bit facts used by the saturation claims. -/

theorem and_two_pow_ne_zero (v k : Nat) (h : v &&& 2 ^ k ≠ 0) :
    v.testBit k = true := by
  by_contra hc
  apply h
  apply Nat.eq_of_testBit_eq
  intro i
  simp only [Nat.testBit_and, Nat.testBit_two_pow, Nat.zero_testBit]
  by_cases hik : k = i
  · subst hik
    simp [Bool.eq_false_iff.mpr hc]
  · simp [hik]

theorem and_mask_testBit (v M j : Nat) (h : v &&& M = M) (hj : M.testBit j = true) :
    v.testBit j = true := by
  have := congrArg (fun x => x.testBit j) h
  simp only [Nat.testBit_and, hj, Bool.and_true] at this
  exact this

theorem sub_pow_testBit (s k j : Nat) (h : k ≤ s) :
    (2 ^ s - 2 ^ k).testBit j = (decide (k ≤ j) && decide (j < s)) := by
  have e : (2 : Nat) ^ s - 2 ^ k = (2 ^ (s - k) - 1) <<< k := by
    rw [Nat.shiftLeft_eq, Nat.sub_mul, one_mul, ← pow_add]
    congr 2
    omega
  rw [e, Nat.testBit_shiftLeft, Nat.testBit_two_pow_sub_one]
  by_cases hk : k ≤ j
  · by_cases hjs : j < s
    · simp [hk, hjs, show j - k < s - k by omega]
    · simp [hk, hjs, show ¬(j - k < s - k) by omega]
  · simp [hk]

theorem or_eq_add_of_lt (v a k : Nat) (hv : v < 2 ^ k) :
    v ||| 2 ^ k * a = 2 ^ k * a + v := by
  apply Nat.eq_of_testBit_eq
  intro i
  rw [Nat.testBit_or, Nat.testBit_mul_pow_two_add a hv i]
  have e : (2 : Nat) ^ k * a = a <<< k := by rw [Nat.shiftLeft_eq, Nat.mul_comm]
  rw [e, Nat.testBit_shiftLeft]
  by_cases hik : i < k
  · simp [hik, show ¬(i ≥ k) by omega]
  · have hvb : v.testBit i = false :=
      Nat.testBit_lt_two_pow (lt_of_lt_of_le hv (Nat.pow_le_pow_right (by omega) (by omega)))
    simp [hik, hvb, show i ≥ k by omega]

/-- Claim C5: in `BSToBS`, when the isolated source value `v` is negative
(source signed with sign bit set) and the destination is unsigned, the
value stored into the destination field is 0, for every combination of
source and destination bit sizes (and any granularity, offsets and
shifts). -/
theorem C5_negative_to_unsigned (W : Nat) (dest src : Nat → Nat)
    (dOff dShift dSize sOff sShift sSize v : Nat)
    (hW : W = 8 ∨ W = 16 ∨ W = 32 ∨ W = 64 ∨ W = 128)
    (hd1 : 1 ≤ dSize) (hd2 : dShift + dSize ≤ W)
    (hs1 : 1 ≤ sSize) (hs2 : sShift + sSize ≤ W)
    (hv : v = (readBytesFrom src sOff ((sSize + sShift + 7) / 8) >>> sShift)
              &&& (2 ^ sSize - 1))
    (hneg : v &&& 2 ^ (sSize - 1) ≠ 0) :
    getField (BSToBS W dest dOff dShift dSize false src sOff sShift sSize true)
      dOff dShift dSize = 0 := by
  have hW8 : 8 ≤ W := by rcases hW with h | h | h | h | h <;> omega
  have hWle : W ≤ 128 := by rcases hW with h | h | h | h | h <;> omega
  rw [BSToBS_getField W dest src dOff dShift dSize sOff sShift sSize false true
      hW8 hWle hd1 hd2 hs1 hs2, ← hv]
  simp [BSToBSvalue, hneg]

/-- Witness for C5: the 4-bit negative value -6 (pattern 10) stored into a
5-bit unsigned field at granularity 8 yields field value 0. -/
theorem C5_witness :
    getField (BSToBS 8 (fun _ => 0) 0 0 5 false
      (fun i => if i = 0 then 10 else 0) 0 0 4 true) 0 0 5 = 0 :=
  C5_negative_to_unsigned 8 (fun _ => 0) (fun i => if i = 0 then 10 else 0)
    0 0 5 0 0 4 10 (by left; rfl) (by decide) (by decide) (by decide) (by decide)
    (by decide) (by decide)

/-- Claim C6: in `BSToBS`, when the isolated source value `v` is
non-negative, the maximum is `destinationMask` (all ones over the field)
for an unsigned destination and `destinationMask` logically shifted right
by 1 for a signed destination; whenever `v` exceeds that maximum, the
stored field is exactly that maximum. -/
theorem C6_positive_saturation (W : Nat) (dest src : Nat → Nat)
    (dOff dShift dSize sOff sShift sSize v : Nat) (dSig sSig : Bool)
    (hW : W = 8 ∨ W = 16 ∨ W = 32 ∨ W = 64 ∨ W = 128)
    (hd1 : 1 ≤ dSize) (hd2 : dShift + dSize ≤ W)
    (hs1 : 1 ≤ sSize) (hs2 : sShift + sSize ≤ W)
    (hv : v = (readBytesFrom src sOff ((sSize + sShift + 7) / 8) >>> sShift)
              &&& (2 ^ sSize - 1))
    (hpos : (sSig && decide (v &&& 2 ^ (sSize - 1) ≠ 0)) = false)
    (hexceed : (if dSig then (2 ^ dSize - 1) >>> 1 else 2 ^ dSize - 1) < v) :
    getField (BSToBS W dest dOff dShift dSize dSig src sOff sShift sSize sSig)
      dOff dShift dSize
      = (if dSig then (2 ^ dSize - 1) >>> 1 else 2 ^ dSize - 1) := by
  have hW8 : 8 ≤ W := by rcases hW with h | h | h | h | h <;> omega
  have hWle : W ≤ 128 := by rcases hW with h | h | h | h | h <;> omega
  have hhalf : (2 ^ dSize - 1) >>> 1 = 2 ^ (dSize - 1) - 1 :=
    allOnes_shiftRight dSize 1 hd1
  have hp1 : (1 : Nat) ≤ 2 ^ (dSize - 1) := Nat.one_le_two_pow
  have hp2 : (2 : Nat) ^ (dSize - 1) ≤ 2 ^ dSize :=
    Nat.pow_le_pow_right (by omega) (by omega)
  have hp3 : (1 : Nat) ≤ 2 ^ dSize := Nat.one_le_two_pow
  rw [BSToBS_getField W dest src dOff dShift dSize sOff sShift sSize dSig sSig
      hW8 hWle hd1 hd2 hs1 hs2, ← hv]
  rw [hhalf] at hexceed ⊢
  unfold BSToBSvalue
  rw [hpos, if_neg Bool.false_ne_true, if_pos hexceed]
  apply Nat.mod_eq_of_lt
  cases dSig
  · rw [if_neg Bool.false_ne_true]
    omega
  · rw [if_pos rfl]
    omega

/-- Witness for C6: packing 200 (unsigned 8-bit source) into a 6-bit signed
field saturates to 31. -/
theorem C6_witness :
    getField (BSToBS 8 (fun _ => 0) 0 0 6 true
      (fun i => if i = 0 then 200 else 0) 0 0 8 false) 0 0 6
      = (if true then (2 ^ 6 - 1) >>> 1 else 2 ^ 6 - 1) :=
  C6_positive_saturation 8 (fun _ => 0) (fun i => if i = 0 then 200 else 0)
    0 0 6 0 0 8 200 true false (by left; rfl) (by decide) (by decide) (by decide)
    (by decide) (by decide) (by decide) (by decide)

/-- Two's-complement meaning of the fitting case of the narrowing branch:
when the negative `sSize`-bit value `v` has all bits of
`mask = sourceMask - (destinationMask >> 1)` set, truncating `v` to the
`dSize`-bit field preserves its signed value. -/
theorem narrow_fits_value (v sSize dSize : Nat) (hd1 : 1 ≤ dSize)
    (hless : dSize < sSize) (hv : v < 2 ^ sSize)
    (hfits : v &&& ((2 ^ sSize - 1) - (2 ^ (dSize - 1) - 1))
        = (2 ^ sSize - 1) - (2 ^ (dSize - 1) - 1)) :
    toSigned dSize (v % 2 ^ dSize) = toSigned sSize v := by
  have hq1 : (1 : Nat) ≤ 2 ^ (dSize - 1) := Nat.one_le_two_pow
  have hq2 : (2 : Nat) ^ (dSize - 1) ≤ 2 ^ sSize :=
    Nat.pow_le_pow_right (by omega) (by omega)
  have hq3 : (2 : Nat) ^ dSize ≤ 2 ^ sSize := Nat.pow_le_pow_right (by omega) (by omega)
  have hMeq : (2 ^ sSize - 1) - (2 ^ (dSize - 1) - 1) = 2 ^ sSize - 2 ^ (dSize - 1) := by
    omega
  rw [hMeq] at hfits
  have hbits : ∀ j, dSize - 1 ≤ j → j < sSize → v.testBit j = true := by
    intro j h1 h2
    exact and_mask_testBit v _ j hfits (by
      rw [sub_pow_testBit sSize (dSize - 1) j (by omega)]
      simp [h1, h2])
  have hge_s : 2 ^ (sSize - 1) ≤ v :=
    Nat.testBit_implies_ge (hbits (sSize - 1) (by omega) (by omega))
  have hmodbit : 2 ^ (dSize - 1) ≤ v % 2 ^ dSize := by
    apply Nat.testBit_implies_ge
    rw [Nat.testBit_mod_two_pow]
    simp [show dSize - 1 < dSize by omega, hbits (dSize - 1) (by omega) (by omega)]
  have hdivision : v >>> dSize = 2 ^ (sSize - dSize) - 1 := by
    apply Nat.eq_of_testBit_eq
    intro i
    rw [Nat.testBit_shiftRight, Nat.testBit_two_pow_sub_one]
    by_cases hc : i < sSize - dSize
    · simp [hc, hbits (dSize + i) (by omega) (by omega)]
    · have hb : v.testBit (dSize + i) = false :=
        Nat.testBit_lt_two_pow (lt_of_lt_of_le hv
          (Nat.pow_le_pow_right (by omega) (show sSize ≤ dSize + i by omega)))
      simp [hc, hb]
  have hkey : v - v % 2 ^ dSize = 2 ^ sSize - 2 ^ dSize := by
    have hdm := Nat.div_add_mod v (2 ^ dSize)
    rw [Nat.shiftRight_eq_div_pow] at hdivision
    rw [hdivision] at hdm
    have hmul : (2 : Nat) ^ dSize * (2 ^ (sSize - dSize) - 1) = 2 ^ sSize - 2 ^ dSize := by
      rw [Nat.mul_sub, Nat.mul_one, ← pow_add]
      congr 2
      omega
    omega
  have hmodlt : v % 2 ^ dSize < 2 ^ dSize := Nat.mod_lt _ (by positivity)
  unfold toSigned
  have hn1 : ¬(v % 2 ^ dSize < 2 ^ (dSize - 1)) := by omega
  have hn2 : ¬(v < 2 ^ (sSize - 1)) := by omega
  rw [if_neg hn1, if_neg hn2]
  have c1 : ((2 : Int) ^ dSize) = ((2 ^ dSize : Nat) : Int) := by push_cast; ring
  have c2 : ((2 : Int) ^ sSize) = ((2 ^ sSize : Nat) : Int) := by push_cast; ring
  rw [c1, c2]
  have hmle : v % 2 ^ dSize ≤ v := Nat.mod_le v _
  have h1 : v % 2 ^ dSize + (2 ^ sSize - 2 ^ dSize) = v := by
    rw [← hkey]
    exact Nat.add_sub_cancel' hmle
  have h2 : ((v % 2 ^ dSize : Nat) : Int)
      + (((2 ^ sSize : Nat) : Int) - ((2 ^ dSize : Nat) : Int)) = (v : Int) := by
    rw [← Nat.cast_sub hq3]
    exact_mod_cast h1
  linarith

/-- Claim C2: in `BSToBS`, when the isolated source value `v` is negative,
the destination is signed and `sSize > dSize` (narrowing): with
`mask = sourceMask - (destinationMask >> 1)`, if `v AND mask ≠ mask` the
stored field is the most negative pattern `destinationSignMask =
2^(dSize-1)`, and otherwise `v` is stored as-is — its truncation to the
destination width, which preserves the signed value exactly. -/
theorem C2_narrowing_saturation (W : Nat) (dest src : Nat → Nat)
    (dOff dShift dSize sOff sShift sSize v : Nat)
    (hW : W = 8 ∨ W = 16 ∨ W = 32 ∨ W = 64 ∨ W = 128)
    (hd1 : 1 ≤ dSize) (hd2 : dShift + dSize ≤ W)
    (hs1 : 1 ≤ sSize) (hs2 : sShift + sSize ≤ W)
    (hv : v = (readBytesFrom src sOff ((sSize + sShift + 7) / 8) >>> sShift)
              &&& (2 ^ sSize - 1))
    (hneg : v &&& 2 ^ (sSize - 1) ≠ 0) (hnarrow : dSize < sSize) :
    (v &&& ((2 ^ sSize - 1) - ((2 ^ dSize - 1) >>> 1))
        ≠ (2 ^ sSize - 1) - ((2 ^ dSize - 1) >>> 1) →
      getField (BSToBS W dest dOff dShift dSize true src sOff sShift sSize true)
        dOff dShift dSize = 2 ^ (dSize - 1)) ∧
    (v &&& ((2 ^ sSize - 1) - ((2 ^ dSize - 1) >>> 1))
        = (2 ^ sSize - 1) - ((2 ^ dSize - 1) >>> 1) →
      getField (BSToBS W dest dOff dShift dSize true src sOff sShift sSize true)
        dOff dShift dSize = v % 2 ^ dSize ∧
      toSigned dSize (v % 2 ^ dSize) = toSigned sSize v) := by
  have hW8 : 8 ≤ W := by rcases hW with h | h | h | h | h <;> omega
  have hWle : W ≤ 128 := by rcases hW with h | h | h | h | h <;> omega
  have hhalf : (2 ^ dSize - 1) >>> 1 = 2 ^ (dSize - 1) - 1 :=
    allOnes_shiftRight dSize 1 hd1
  have hp1 : (1 : Nat) ≤ 2 ^ sSize := Nat.one_le_two_pow
  have hvlt : v < 2 ^ sSize := by
    have hle : v ≤ 2 ^ sSize - 1 := hv ▸ Nat.and_le_right
    omega
  have hfield := BSToBS_getField W dest src dOff dShift dSize sOff sShift sSize
    true true hW8 hWle hd1 hd2 hs1 hs2
  rw [← hv] at hfield
  unfold BSToBSvalue at hfield
  have hcond : (true && decide (v &&& 2 ^ (sSize - 1) ≠ 0)) = true := by
    simp [hneg]
  rw [hcond, if_pos rfl] at hfield
  simp only [Bool.not_true] at hfield
  rw [if_neg Bool.false_ne_true, if_pos hnarrow] at hfield
  constructor
  · intro hne
    rw [hhalf] at hne
    rw [hfield, if_pos hne]
    exact Nat.mod_eq_of_lt (Nat.pow_lt_pow_right (by omega) (by omega))
  · intro heq
    rw [hhalf] at heq
    refine ⟨?_, narrow_fits_value v sSize dSize hd1 hnarrow hvlt heq⟩
    rw [hfield, if_neg (not_not_intro heq)]

/-- Witness for C2: the 8-bit value -120 (pattern 136) into a 4-bit signed
field saturates to the most negative pattern `8` (the value -8). -/
theorem C2_witness :
    getField (BSToBS 8 (fun _ => 0) 0 0 4 true
      (fun i => if i = 0 then 136 else 0) 0 0 8 true) 0 0 4 = 2 ^ (4 - 1) :=
  (C2_narrowing_saturation 8 (fun _ => 0) (fun i => if i = 0 then 136 else 0)
    0 0 4 0 0 8 136 (by left; rfl) (by decide) (by decide) (by decide)
    (by decide) (by decide) (by decide) (by decide)).1 (by decide)

/-- Claim C7: in `BSToBS`, when the isolated source value `v` is negative,
the destination is signed and `sSize ≤ dSize` (widening or equal), the
stored field is `v OR (destinationMask - sourceMask)`, the correct
two's-complement sign extension of `v` to the destination width. -/
theorem C7_widening_sign_extension (W : Nat) (dest src : Nat → Nat)
    (dOff dShift dSize sOff sShift sSize v : Nat)
    (hW : W = 8 ∨ W = 16 ∨ W = 32 ∨ W = 64 ∨ W = 128)
    (hd1 : 1 ≤ dSize) (hd2 : dShift + dSize ≤ W)
    (hs1 : 1 ≤ sSize) (hs2 : sShift + sSize ≤ W)
    (hv : v = (readBytesFrom src sOff ((sSize + sShift + 7) / 8) >>> sShift)
              &&& (2 ^ sSize - 1))
    (hneg : v &&& 2 ^ (sSize - 1) ≠ 0) (hwiden : sSize ≤ dSize) :
    getField (BSToBS W dest dOff dShift dSize true src sOff sShift sSize true)
        dOff dShift dSize = v ||| ((2 ^ dSize - 1) - (2 ^ sSize - 1)) ∧
    toSigned dSize (v ||| ((2 ^ dSize - 1) - (2 ^ sSize - 1)))
        = toSigned sSize v := by
  have hW8 : 8 ≤ W := by rcases hW with h | h | h | h | h <;> omega
  have hWle : W ≤ 128 := by rcases hW with h | h | h | h | h <;> omega
  have hp1 : (1 : Nat) ≤ 2 ^ sSize := Nat.one_le_two_pow
  have hp2 : (1 : Nat) ≤ 2 ^ dSize := Nat.one_le_two_pow
  have hq : (2 : Nat) ^ sSize ≤ 2 ^ dSize := Nat.pow_le_pow_right (by omega) hwiden
  have hM : (2 ^ dSize - 1) - (2 ^ sSize - 1) = 2 ^ dSize - 2 ^ sSize := by omega
  have hvlt : v < 2 ^ sSize := by
    have hle : v ≤ 2 ^ sSize - 1 := hv ▸ Nat.and_le_right
    omega
  have hMfact : (2 : Nat) ^ dSize - 2 ^ sSize = 2 ^ sSize * (2 ^ (dSize - sSize) - 1) := by
    rw [Nat.mul_sub, Nat.mul_one, ← pow_add]
    congr 2
    omega
  have hor_add : v ||| (2 ^ dSize - 2 ^ sSize) = 2 ^ dSize - 2 ^ sSize + v := by
    rw [hMfact, or_eq_add_of_lt v _ sSize hvlt, ← hMfact]
  have hge_s : 2 ^ (sSize - 1) ≤ v :=
    Nat.testBit_implies_ge (and_two_pow_ne_zero v (sSize - 1) hneg)
  have hps : (2 : Nat) ^ sSize = 2 ^ (sSize - 1) * 2 := by
    rw [← pow_succ]
    congr 1
    omega
  have hpd : (2 : Nat) ^ dSize = 2 ^ (dSize - 1) * 2 := by
    rw [← pow_succ]
    congr 1
    omega
  have hpsd : (2 : Nat) ^ (sSize - 1) ≤ 2 ^ (dSize - 1) :=
    Nat.pow_le_pow_right (by omega) (by omega)
  have hval_ge : 2 ^ (dSize - 1) ≤ 2 ^ dSize - 2 ^ sSize + v := by omega
  have hval_lt : 2 ^ dSize - 2 ^ sSize + v < 2 ^ dSize := by omega
  have hfield := BSToBS_getField W dest src dOff dShift dSize sOff sShift sSize
    true true hW8 hWle hd1 hd2 hs1 hs2
  rw [← hv] at hfield
  unfold BSToBSvalue at hfield
  have hcond : (true && decide (v &&& 2 ^ (sSize - 1) ≠ 0)) = true := by
    simp [hneg]
  rw [hcond, if_pos rfl] at hfield
  simp only [Bool.not_true] at hfield
  rw [if_neg Bool.false_ne_true, if_neg (show ¬(dSize < sSize) by omega)] at hfield
  constructor
  · rw [hfield, hM, hor_add]
    exact Nat.mod_eq_of_lt hval_lt
  · rw [hM, hor_add]
    unfold toSigned
    have hn1 : ¬(2 ^ dSize - 2 ^ sSize + v < 2 ^ (dSize - 1)) := by omega
    have hn2 : ¬(v < 2 ^ (sSize - 1)) := by omega
    rw [if_neg hn1, if_neg hn2]
    have c1 : ((2 : Int) ^ dSize) = ((2 ^ dSize : Nat) : Int) := by push_cast; ring
    have c2 : ((2 : Int) ^ sSize) = ((2 ^ sSize : Nat) : Int) := by push_cast; ring
    rw [c1, c2]
    have h1 : ((2 ^ dSize - 2 ^ sSize + v : Nat) : Int)
        = ((2 ^ dSize : Nat) : Int) - ((2 ^ sSize : Nat) : Int) + (v : Int) := by
      rw [Nat.cast_add, Nat.cast_sub hq]
    rw [h1]
    ring

/-- Witness for C7: the 4-bit value -3 (pattern 13) into a 16-bit signed
field yields the sign-extended pattern `13 OR 0xFFF0 = 0xFFFD`, the 16-bit
two's-complement representation of -3. -/
theorem C7_witness :
    getField (BSToBS 16 (fun _ => 0) 0 0 16 true
      (fun i => if i = 0 then 13 else 0) 0 0 4 true) 0 0 16
        = 13 ||| ((2 ^ 16 - 1) - (2 ^ 4 - 1)) ∧
    toSigned 16 (13 ||| ((2 ^ 16 - 1) - (2 ^ 4 - 1))) = toSigned 4 13 :=
  C7_widening_sign_extension 16 (fun _ => 0) (fun i => if i = 0 then 13 else 0)
    0 0 16 0 0 4 13 (by right; left; rfl) (by decide) (by decide) (by decide)
    (by decide) (by decide) (by decide) (by decide)

/-! Cursor arithmetic of `BitSetToBitSet`. -/

/-- Normalizing a bit-shift cursor (pointer advance plus shift reduction)
and then adding the consumed bit size advances the total bit position by
exactly the bit size. -/
theorem cursor_norm (g k sOff sShift sSize : Nat) (hgk : g = 2 ^ k) (hk3 : 3 ≤ k)
    (hk7 : k ≤ 7) (hss : sSize ≤ 128) :
    8 * (if g ≤ sShift then
          sOff + Shift.LogicalRightSafeShift 8 sShift (3 + Nat.log2 (g / 8)) * (g / 8)
        else sOff)
      + ((if g ≤ sShift then sShift &&& (g - 1) else sShift) + sSize) % 256
      = 8 * sOff + sShift + sSize := by
  subst hgk
  have hlog : 3 + Nat.log2 (2 ^ k / 8) = k := by
    have h1 : (2 : Nat) ^ k / 8 = 2 ^ (k - 3) := by
      rw [(show (8 : Nat) = 2 ^ 3 by norm_num), Nat.pow_div (by omega) (by omega)]
    rw [h1, Nat.log2_two_pow]
    omega
  have hklt : (2 : Nat) ^ k ≤ 128 := by
    calc (2 : Nat) ^ k ≤ 2 ^ 7 := Nat.pow_le_pow_right (by omega) hk7
    _ = 128 := by norm_num
  rw [hlog]
  by_cases hc : 2 ^ k ≤ sShift
  · rw [if_pos hc, if_pos hc, lrss_eval 8 sShift k (by omega) (by omega),
      Nat.shiftRight_eq_div_pow, Nat.and_pow_two_sub_one_eq_mod]
    have hdm := Nat.div_add_mod sShift (2 ^ k)
    have hmlt : sShift % 2 ^ k < 2 ^ k := Nat.mod_lt _ (by positivity)
    have hk8 : 8 * (2 ^ k / 8) = 2 ^ k := by
      have he : (2 : Nat) ^ k = 8 * 2 ^ (k - 3) := by
        rw [(show (8 : Nat) = 2 ^ 3 by norm_num), ← pow_add]
        congr 1
        omega
      rw [he, Nat.mul_div_cancel_left _ (by norm_num)]
    have hmod256 : (sShift % 2 ^ k + sSize) % 256 = sShift % 2 ^ k + sSize :=
      Nat.mod_eq_of_lt (by omega)
    have hstep : 8 * (sOff + sShift / 2 ^ k * (2 ^ k / 8))
        = 8 * sOff + 2 ^ k * (sShift / 2 ^ k) := by
      calc 8 * (sOff + sShift / 2 ^ k * (2 ^ k / 8))
          = 8 * sOff + 8 * (2 ^ k / 8) * (sShift / 2 ^ k) := by ring
      _ = 8 * sOff + 2 ^ k * (sShift / 2 ^ k) := by rw [hk8]
    rw [hmod256, hstep]
    omega
  · rw [if_neg hc, if_neg hc,
      Nat.mod_eq_of_lt (show sShift + sSize < 256 by omega)]
    omega

/-- If even the 128-bit granularity cannot accommodate the two normalized
bit ranges, `BitSetToBitSet` takes the failure branch: it returns false and
leaves the destination memory untouched. -/
theorem BitSetToBitSet_else (g : Nat) (dest src : Nat → Nat)
    (dOff dShift dSize sOff sShift sSize : Nat) (dSig sSig : Bool)
    (h128 : ¬((if g ≤ sShift then sShift &&& (g - 1) else sShift) + sSize ≤ 128 ∧
              (if g ≤ dShift then dShift &&& (g - 1) else dShift) + dSize ≤ 128)) :
    (BitSetToBitSet g dest dOff dShift dSize dSig src sOff sShift sSize sSig).ret
        = false ∧
    (BitSetToBitSet g dest dOff dShift dSize dSig src sOff sShift sSize sSig).dest
        = dest := by
  simp only [BitSetToBitSet]
  set sN := (if g ≤ sShift then sShift &&& (g - 1) else sShift) with hsN
  set dN := (if g ≤ dShift then dShift &&& (g - 1) else dShift) with hdN
  have c1 : ¬(sN + sSize ≤ 8 ∧ dN + dSize ≤ 8 ∧ g = 8) :=
    fun h => h128 ⟨by omega, by omega⟩
  have c2 : ¬(sN + sSize ≤ 16 ∧ dN + dSize ≤ 16 ∧ g ≤ 16) :=
    fun h => h128 ⟨by omega, by omega⟩
  have c3 : ¬(sN + sSize ≤ 32 ∧ dN + dSize ≤ 32 ∧ g ≤ 32) :=
    fun h => h128 ⟨by omega, by omega⟩
  have c4 : ¬(sN + sSize ≤ 64 ∧ dN + dSize ≤ 64 ∧ g ≤ 64) :=
    fun h => h128 ⟨by omega, by omega⟩
  have c5 : ¬(sN + sSize ≤ 128 ∧ dN + dSize ≤ 128 ∧ g ≤ 128) :=
    fun h => h128 ⟨h.1, h.2.1⟩
  rw [if_neg c1, if_neg c2, if_neg c3, if_neg c4, if_neg c5]
  exact ⟨rfl, rfl⟩

/-- Claim C8: when `BitSetToBitSet` finds no granularity in {8,16,32,64,128}
accommodating both normalized bit-range ends, it returns false and performs
no mutation of the destination memory (the source is never written); and in
every call, successful or failed, the source cursor (byte offset and bit
shift) advances by exactly `sSize` bits and the destination cursor by
exactly `dSize` bits. -/
theorem C8_failure_and_cursors (g : Nat) (dest src : Nat → Nat)
    (dOff dShift dSize sOff sShift sSize : Nat) (dSig sSig : Bool)
    (hg : g = 8 ∨ g = 16 ∨ g = 32 ∨ g = 64 ∨ g = 128)
    (hds : dSize ≤ 128) (hss : sSize ≤ 128) :
    ((∀ gr, gr ≤ 128 → (gr = 8 ∨ gr = 16 ∨ gr = 32 ∨ gr = 64 ∨ gr = 128) →
        ¬((if g ≤ sShift then sShift &&& (g - 1) else sShift) + sSize ≤ gr ∧
          (if g ≤ dShift then dShift &&& (g - 1) else dShift) + dSize ≤ gr)) →
      (BitSetToBitSet g dest dOff dShift dSize dSig src sOff sShift sSize sSig).ret
          = false ∧
      (BitSetToBitSet g dest dOff dShift dSize dSig src sOff sShift sSize sSig).dest
          = dest) ∧
    8 * (BitSetToBitSet g dest dOff dShift dSize dSig src sOff sShift sSize sSig).sOff
        + (BitSetToBitSet g dest dOff dShift dSize dSig src sOff sShift sSize sSig).sShift
        = 8 * sOff + sShift + sSize ∧
    8 * (BitSetToBitSet g dest dOff dShift dSize dSig src sOff sShift sSize sSig).dOff
        + (BitSetToBitSet g dest dOff dShift dSize dSig src sOff sShift sSize sSig).dShift
        = 8 * dOff + dShift + dSize := by
  refine ⟨fun hfail => BitSetToBitSet_else g dest src dOff dShift dSize sOff sShift
    sSize dSig sSig (hfail 128 (by omega) (by simp)), ?_, ?_⟩
  · rcases hg with hg | hg | hg | hg | hg <;> subst hg <;> simp only [BitSetToBitSet]
    · exact cursor_norm 8 3 sOff sShift sSize (by norm_num) (by omega) (by omega) hss
    · exact cursor_norm 16 4 sOff sShift sSize (by norm_num) (by omega) (by omega) hss
    · exact cursor_norm 32 5 sOff sShift sSize (by norm_num) (by omega) (by omega) hss
    · exact cursor_norm 64 6 sOff sShift sSize (by norm_num) (by omega) (by omega) hss
    · exact cursor_norm 128 7 sOff sShift sSize (by norm_num) (by omega) (by omega) hss
  · rcases hg with hg | hg | hg | hg | hg <;> subst hg <;> simp only [BitSetToBitSet]
    · exact cursor_norm 8 3 dOff dShift dSize (by norm_num) (by omega) (by omega) hds
    · exact cursor_norm 16 4 dOff dShift dSize (by norm_num) (by omega) (by omega) hds
    · exact cursor_norm 32 5 dOff dShift dSize (by norm_num) (by omega) (by omega) hds
    · exact cursor_norm 64 6 dOff dShift dSize (by norm_num) (by omega) (by omega) hds
    · exact cursor_norm 128 7 dOff dShift dSize (by norm_num) (by omega) (by omega) hds

/-- Witness for C8 at granularity 8, shifts 5, sizes 126 (combined demand
131 bits exceeds every granularity). -/
theorem C8_witness :
    ((∀ gr, gr ≤ 128 → (gr = 8 ∨ gr = 16 ∨ gr = 32 ∨ gr = 64 ∨ gr = 128) →
        ¬((if 8 ≤ 5 then 5 &&& (8 - 1) else 5) + 126 ≤ gr ∧
          (if 8 ≤ 5 then 5 &&& (8 - 1) else 5) + 126 ≤ gr)) →
      (BitSetToBitSet 8 (fun _ => 0) 0 5 126 false (fun _ => 0) 0 5 126
          false).ret = false ∧
      (BitSetToBitSet 8 (fun _ => 0) 0 5 126 false (fun _ => 0) 0 5 126
          false).dest = fun _ => 0) ∧
    8 * (BitSetToBitSet 8 (fun _ => 0) 0 5 126 false (fun _ => 0) 0 5 126
          false).sOff
        + (BitSetToBitSet 8 (fun _ => 0) 0 5 126 false (fun _ => 0) 0 5 126
          false).sShift = 8 * 0 + 5 + 126 ∧
    8 * (BitSetToBitSet 8 (fun _ => 0) 0 5 126 false (fun _ => 0) 0 5 126
          false).dOff
        + (BitSetToBitSet 8 (fun _ => 0) 0 5 126 false (fun _ => 0) 0 5 126
          false).dShift = 8 * 0 + 5 + 126 :=
  C8_failure_and_cursors 8 (fun _ => 0) (fun _ => 0) 0 5 126 0 5 126 false false
    (by left; rfl) (by decide) (by decide)

/-! Single-byte span facts (claim C9). -/

theorem readBytesFrom_one (mem : Nat → Nat) (off : Nat) :
    readBytesFrom mem off 1 = mem off := by
  unfold readBytesFrom readBytes
  simp [readBytes]

/-- When both bit ranges end within the first byte, `BSToBS` writes only the
byte at the destination offset. -/
theorem BSToBS_frame_one (W : Nat) (dest src : Nat → Nat)
    (dOff dShift dSize sOff sShift sSize : Nat) (dSig sSig : Bool)
    (hd1 : 1 ≤ dSize) (hdE : dShift + dSize ≤ 8) (i : Nat) (hi : i ≠ dOff) :
    BSToBS W dest dOff dShift dSize dSig src sOff sShift sSize sSig i = dest i := by
  have hnb : (dSize + dShift + 7) / 8 = 1 := by omega
  simp only [BSToBS]
  rw [hnb]
  exact writeBytesAt_frame dest dOff 1 _ i (by omega)

/-- When both bit ranges end within the first byte, the byte `BSToBS` writes
depends only on the source byte at `sOff` and the destination byte at
`dOff`. -/
theorem BSToBS_reads_one (W : Nat) (dest src dest2 src2 : Nat → Nat)
    (dOff dShift dSize sOff sShift sSize : Nat) (dSig sSig : Bool)
    (hd1 : 1 ≤ dSize) (hdE : dShift + dSize ≤ 8)
    (hs1 : 1 ≤ sSize) (hsE : sShift + sSize ≤ 8)
    (heqd : dest2 dOff = dest dOff) (heqs : src2 sOff = src sOff) :
    BSToBS W dest2 dOff dShift dSize dSig src2 sOff sShift sSize sSig dOff
      = BSToBS W dest dOff dShift dSize dSig src sOff sShift sSize sSig dOff := by
  have hnbd : (dSize + dShift + 7) / 8 = 1 := by omega
  have hnbs : (sSize + sShift + 7) / 8 = 1 := by omega
  simp only [BSToBS]
  rw [hnbd, hnbs, readBytesFrom_one src2 sOff, readBytesFrom_one src sOff,
    readBytesFrom_one dest2 dOff, readBytesFrom_one dest dOff, heqd, heqs]
  unfold writeBytesAt
  rw [if_pos (show dOff ≤ dOff ∧ dOff < dOff + 1 by omega),
    if_pos (show dOff ≤ dOff ∧ dOff < dOff + 1 by omega)]

/-- Dispatch of `BitSetToBitSet` when both bit-range ends are within 8 bits:
the granularity-`g` core routine runs directly (no pointer normalization,
the branch chosen is the one for `g` itself). -/
theorem BitSetToBitSet_small (g : Nat) (dest src : Nat → Nat)
    (dOff dShift dSize sOff sShift sSize : Nat) (dSig sSig : Bool)
    (hg : g = 8 ∨ g = 16 ∨ g = 32 ∨ g = 64 ∨ g = 128)
    (hd1 : 1 ≤ dSize) (hdE : dShift + dSize ≤ 8)
    (hs1 : 1 ≤ sSize) (hsE : sShift + sSize ≤ 8) :
    (BitSetToBitSet g dest dOff dShift dSize dSig src sOff sShift sSize sSig).dest
      = BSToBS g dest dOff dShift dSize dSig src sOff sShift sSize sSig := by
  have hslt : ¬(g ≤ sShift) := by rcases hg with h | h | h | h | h <;> omega
  have hdlt : ¬(g ≤ dShift) := by rcases hg with h | h | h | h | h <;> omega
  rcases hg with hg | hg | hg | hg | hg <;> subst hg <;>
    simp only [BitSetToBitSet, if_neg hslt, if_neg hdlt]
  · rw [if_pos ⟨hsE, hdE, trivial⟩]
  · rw [if_neg (fun h => absurd h.2.2 (by decide)),
      if_pos ⟨by omega, by omega, by decide⟩]
  · rw [if_neg (fun h => absurd h.2.2 (by decide)),
      if_neg (fun h => absurd h.2.2 (by decide)),
      if_pos ⟨by omega, by omega, by decide⟩]
  · rw [if_neg (fun h => absurd h.2.2 (by decide)),
      if_neg (fun h => absurd h.2.2 (by decide)),
      if_neg (fun h => absurd h.2.2 (by decide)),
      if_pos ⟨by omega, by omega, by decide⟩]
  · rw [if_neg (fun h => absurd h.2.2 (by decide)),
      if_neg (fun h => absurd h.2.2 (by decide)),
      if_neg (fun h => absurd h.2.2 (by decide)),
      if_neg (fun h => absurd h.2.2 (by decide)),
      if_pos ⟨by omega, by omega, by decide⟩]

/-- Claim C9: for a `BitSetToBitSet` call in which both the source bit-range
end (`sShift + sSize`) and the destination bit-range end (`dShift + dSize`)
are ≤ 8, at most one byte of the source buffer is read and at most one byte
of the destination buffer is read or written: every destination byte other
than the single byte at the destination offset keeps its value, and the
written byte is a function of only the source byte at the source offset and
the destination byte at the destination offset. -/
theorem C9_single_byte_span (g : Nat) (dest src : Nat → Nat)
    (dOff dShift dSize sOff sShift sSize : Nat) (dSig sSig : Bool)
    (hg : g = 8 ∨ g = 16 ∨ g = 32 ∨ g = 64 ∨ g = 128)
    (hd1 : 1 ≤ dSize) (hdE : dShift + dSize ≤ 8)
    (hs1 : 1 ≤ sSize) (hsE : sShift + sSize ≤ 8) :
    (∀ i, i ≠ dOff →
      (BitSetToBitSet g dest dOff dShift dSize dSig src sOff sShift sSize
        sSig).dest i = dest i) ∧
    (∀ dest2 src2 : Nat → Nat, dest2 dOff = dest dOff → src2 sOff = src sOff →
      (BitSetToBitSet g dest2 dOff dShift dSize dSig src2 sOff sShift sSize
        sSig).dest dOff
        = (BitSetToBitSet g dest dOff dShift dSize dSig src sOff sShift sSize
            sSig).dest dOff) := by
  constructor
  · intro i hi
    rw [BitSetToBitSet_small g dest src dOff dShift dSize sOff sShift sSize
      dSig sSig hg hd1 hdE hs1 hsE]
    exact BSToBS_frame_one g dest src dOff dShift dSize sOff sShift sSize
      dSig sSig hd1 hdE i hi
  · intro dest2 src2 h1 h2
    rw [BitSetToBitSet_small g dest src dOff dShift dSize sOff sShift sSize
        dSig sSig hg hd1 hdE hs1 hsE,
      BitSetToBitSet_small g dest2 src2 dOff dShift dSize sOff sShift sSize
        dSig sSig hg hd1 hdE hs1 hsE]
    exact BSToBS_reads_one g dest src dest2 src2 dOff dShift dSize sOff sShift
      sSize dSig sSig hd1 hdE hs1 hsE h1 h2

/-- Witness for C9 at granularity 16 with a 4-bit source field at bit 1 and
a 3-bit signed destination field at bit 2, both within the first byte. -/
theorem C9_witness :
    (∀ i, i ≠ 0 →
      (BitSetToBitSet 16 (fun _ => 170) 0 2 3 true (fun _ => 37) 0 1 4
        false).dest i = (fun _ : Nat => 170) i) ∧
    (∀ dest2 src2 : Nat → Nat,
      dest2 0 = (fun _ : Nat => 170) 0 → src2 0 = (fun _ : Nat => 37) 0 →
      (BitSetToBitSet 16 dest2 0 2 3 true src2 0 1 4 false).dest 0
        = (BitSetToBitSet 16 (fun _ => 170) 0 2 3 true (fun _ => 37) 0 1 4
            false).dest 0) :=
  C9_single_byte_span 16 (fun _ => 170) (fun _ => 37) 0 2 3 0 1 4 true false
    (by right; left; rfl) (by decide) (by decide) (by decide) (by decide)

/-! Two's-complement conversion lemmas (claim C1). -/

theorem toUnsigned_lt (w : Nat) (x : Int) : toUnsigned w x < 2 ^ w := by
  unfold toUnsigned
  have h1 : (0 : Int) ≤ x % 2 ^ w := Int.emod_nonneg x (by positivity)
  have h2 : x % 2 ^ w < 2 ^ w := Int.emod_lt_of_pos x (by positivity)
  have hc : ((2 : Int) ^ w) = ((2 ^ w : Nat) : Int) := by push_cast; ring
  rw [hc] at h2
  omega

theorem toUnsigned_of_nonneg (w : Nat) (x : Int) (h0 : 0 ≤ x)
    (hlt : x < (2 : Int) ^ w) : toUnsigned w x = x.toNat := by
  unfold toUnsigned
  rw [Int.emod_eq_of_lt h0 hlt]

theorem toUnsigned_of_neg (w : Nat) (x : Int) (hneg : x < 0)
    (hge : -((2 : Int) ^ w) ≤ x) :
    ((toUnsigned w x : Nat) : Int) = x + 2 ^ w := by
  unfold toUnsigned
  have hpos : (0 : Int) < 2 ^ w := by positivity
  have h1 : x % (2 : Int) ^ w = x + 2 ^ w := by
    have e : x % (2 : Int) ^ w = (x + 2 ^ w * 1) % 2 ^ w := by
      rw [Int.add_mul_emod_self_left]
    rw [e, Int.emod_eq_of_lt (by omega) (by omega)]
    ring
  rw [h1, Int.toNat_of_nonneg (by omega)]

theorem toSigned_toUnsigned (w : Nat) (x : Int) (hw : 1 ≤ w)
    (h1 : -((2 : Int) ^ (w - 1)) ≤ x) (h2 : x < (2 : Int) ^ (w - 1)) :
    toSigned w (toUnsigned w x) = x := by
  have hpow : ((2 : Int) ^ w) = 2 ^ (w - 1) * 2 := by
    rw [← pow_succ]
    congr 1
    omega
  have hposh : (0 : Int) < 2 ^ (w - 1) := by positivity
  have hcast : (((2 : Nat) ^ (w - 1) : Nat) : Int) = (2 : Int) ^ (w - 1) := by
    push_cast; ring
  rcases le_or_lt 0 x with hx | hx
  · rw [toUnsigned_of_nonneg w x hx (by nlinarith)]
    unfold toSigned
    have hlt : x.toNat < 2 ^ (w - 1) := by omega
    rw [if_pos hlt, Int.toNat_of_nonneg hx]
  · have hN := toUnsigned_of_neg w x hx (by nlinarith)
    unfold toSigned
    have hge : ¬(toUnsigned w x < 2 ^ (w - 1)) := by omega
    rw [if_neg hge]
    have hc2 : (((2 : Nat) ^ w : Nat) : Int) = (2 : Int) ^ w := by push_cast; ring
    omega

theorem readBytes_zero_mem (n : Nat) : readBytes (fun _ => 0) n = 0 := by
  induction n with
  | zero => rfl
  | succ m ih =>
    unfold readBytes
    rw [ih]
    simp

theorem readBytes_int64Mem (v : Int) : readBytes (int64Mem v) 8 = toUnsigned 64 v := by
  have h1 : readBytes (int64Mem v) 8
      = readBytes (fun i => toUnsigned 64 v / 256 ^ i % 256) 8 := by
    apply readBytes_congr
    intro i hi
    unfold int64Mem
    rw [Nat.shiftRight_eq_div_pow, pow256_eq i]
  rw [h1, readBytes_div_mod, Nat.mod_eq_of_lt]
  exact lt_of_lt_of_le (toUnsigned_lt 64 v) (by norm_num)

theorem div_high (W j n : Nat) (h1 : 2 ^ W - 2 ^ j ≤ n) (h2 : n < 2 ^ W)
    (hj : j ≤ W) : n / 2 ^ j = 2 ^ (W - j) - 1 := by
  have hp : (2 : Nat) ^ j * 2 ^ (W - j) = 2 ^ W := by
    rw [← pow_add]
    congr 1
    omega
  have hjw : (2 : Nat) ^ j ≤ 2 ^ W := Nat.pow_le_pow_right (by omega) hj
  have hq1 : 2 ^ (W - j) - 1 ≤ n / 2 ^ j := by
    rw [Nat.le_div_iff_mul_le (by positivity)]
    have e : (2 ^ (W - j) - 1) * 2 ^ j = 2 ^ W - 2 ^ j := by
      rw [Nat.sub_mul, one_mul, Nat.mul_comm (2 ^ (W - j)) (2 ^ j), hp]
    omega
  have hq2 : n / 2 ^ j < 2 ^ (W - j) := by
    rw [Nat.div_lt_iff_lt_mul (by positivity), Nat.mul_comm (2 ^ (W - j)) (2 ^ j), hp]
    exact h2
  omega

theorem testBit_of_ge (W t n j : Nat) (h1 : 2 ^ W - 2 ^ t ≤ n) (h2 : n < 2 ^ W)
    (h3 : t ≤ j) (h4 : j < W) : n.testBit j = true := by
  have htj : (2 : Nat) ^ t ≤ 2 ^ j := Nat.pow_le_pow_right (by omega) h3
  have hdiv : n / 2 ^ j = 2 ^ (W - j) - 1 := div_high W j n (by omega) h2 (by omega)
  rw [Nat.testBit_to_div_mod, hdiv]
  have h5 : (2 : Nat) ^ (W - j) = 2 * 2 ^ (W - j - 1) := by
    rw [← pow_succ']
    congr 1
    omega
  have h6 : (1 : Nat) ≤ 2 ^ (W - j - 1) := Nat.one_le_two_pow
  simp only [decide_eq_true_eq]
  omega

theorem and_two_pow_eq_zero (v k : Nat) (h : v.testBit k = false) :
    v &&& 2 ^ k = 0 := by
  apply Nat.eq_of_testBit_eq
  intro i
  simp only [Nat.testBit_and, Nat.testBit_two_pow, Nat.zero_testBit]
  by_cases hik : k = i
  · subst hik
    simp [h]
  · simp [hik]

theorem and_two_pow_ne_zero_of_testBit (v k : Nat) (h : v.testBit k = true) :
    v &&& 2 ^ k ≠ 0 := by
  intro hc
  have := congrArg (fun x => x.testBit k) hc
  simp only [Nat.testBit_and, Nat.testBit_two_pow, Nat.zero_testBit, h] at this
  simp at this

theorem byte_of_mod (v m j : Nat) (h : 8 * j + 8 ≤ m) :
    v % 2 ^ m / 256 ^ j % 256 = v / 256 ^ j % 256 := by
  apply Nat.eq_of_testBit_eq
  intro i
  by_cases hi : i < 8
  · rw [byte_testBit _ _ _ hi, byte_testBit _ _ _ hi, Nat.testBit_mod_two_pow]
    simp [show 8 * j + i < m by omega]
  · have hb : (256 : Nat) ≤ 2 ^ i :=
      le_trans (by norm_num : (256 : Nat) ≤ 2 ^ 8) (Nat.pow_le_pow_right (by omega) (by omega))
    rw [Nat.testBit_lt_two_pow (lt_of_lt_of_le (Nat.mod_lt _ (by norm_num)) hb),
      Nat.testBit_lt_two_pow (lt_of_lt_of_le (Nat.mod_lt _ (by norm_num)) hb)]

theorem writeBytesAt_mod_pow (mem : Nat → Nat) (off n v m : Nat) (h : 8 * n ≤ m) :
    writeBytesAt mem off n (v % 2 ^ m) = writeBytesAt mem off n v := by
  funext i
  unfold writeBytesAt
  by_cases hc : off ≤ i ∧ i < off + n
  · rw [if_pos hc, if_pos hc, byte_of_mod v m (i - off) (by omega)]
  · rw [if_neg hc, if_neg hc]

/-- Mask-evaluated form of `BSToBS`: the routine writes, over the minimal
byte span of the destination field, the positioned transform value merged
with the destination's bits outside the field. -/
theorem BSToBS_eq_write (W : Nat) (dest src : Nat → Nat)
    (dOff dShift dSize sOff sShift sSize : Nat) (dSig sSig : Bool)
    (hW8 : 8 ≤ W) (hWle : W ≤ 128) (hd1 : 1 ≤ dSize) (hd2 : dShift + dSize ≤ W)
    (hs1 : 1 ≤ sSize) (hs2 : sShift + sSize ≤ W) :
    BSToBS W dest dOff dShift dSize dSig src sOff sShift sSize sSig
      = writeBytesAt dest dOff ((dSize + dShift + 7) / 8)
          (((BSToBSvalue dSize dSig sSize sSig
              ((readBytesFrom src sOff ((sSize + sShift + 7) / 8) >>> sShift)
                &&& (2 ^ sSize - 1)) <<< dShift) % 2 ^ W) |||
            (((2 ^ W - 1) ^^^ (((2 ^ dSize - 1) <<< dShift) % 2 ^ W))
              &&& readBytesFrom dest dOff ((dSize + dShift + 7) / 8))) := by
  have hMaskS : Shift.LogicalRightSafeShift W (2 ^ W - 1) (W - sSize)
      = 2 ^ sSize - 1 := by
    rw [lrss_eval W _ _ hWle (by omega), allOnes_shiftRight W _ (by omega)]
    congr 2
    omega
  have hMaskD : Shift.LogicalRightSafeShift W (2 ^ W - 1) (W - dSize)
      = 2 ^ dSize - 1 := by
    rw [lrss_eval W _ _ hWle (by omega), allOnes_shiftRight W _ (by omega)]
    congr 2
    omega
  have hSignS : Shift.LogicalLeftSafeShift W 1 (sSize - 1) = 2 ^ (sSize - 1) := by
    rw [llss_eval W _ _ hWle (by omega), one_shiftLeft_mod W _ (by omega)]
  have hSignD : Shift.LogicalLeftSafeShift W 1 (dSize - 1) = 2 ^ (dSize - 1) := by
    rw [llss_eval W _ _ hWle (by omega), one_shiftLeft_mod W _ (by omega)]
  have hHalf : Shift.LogicalRightSafeShift W (2 ^ dSize - 1) 1
      = 2 ^ (dSize - 1) - 1 := by
    rw [lrss_eval W _ _ hWle (by omega), allOnes_shiftRight dSize 1 (by omega)]
  simp only [BSToBS]
  rw [hMaskS, hMaskD, hSignS, hSignD, hHalf,
    lrss_eval W (readBytesFrom src sOff ((sSize + sShift + 7) / 8)) sShift hWle
      (by omega),
    llss_eval W (2 ^ dSize - 1) dShift hWle (by omega),
    llss_eval W _ dShift hWle (by omega)]
  rfl

/-- Narrowing a 64-bit signed pattern to a `w`-bit signed field keeps the
pattern unchanged when the value fits in `w` bits as two's complement. -/
theorem BSToBSvalue_id (w n : Nat) (h1 : 1 ≤ w) (h64 : w ≤ 64)
    (hcase : n < 2 ^ (w - 1) ∨ (2 ^ 64 - 2 ^ (w - 1) ≤ n ∧ n < 2 ^ 64)) :
    BSToBSvalue w true 64 true n = n := by
  have hw1 : (2 : Nat) ^ (w - 1) ≤ 2 ^ 63 := Nat.pow_le_pow_right (by omega) (by omega)
  rcases hcase with hpos | ⟨hlo, hhi⟩
  · have hbit : n.testBit 63 = false := Nat.testBit_lt_two_pow (by omega)
    have hand : n &&& 2 ^ (64 - 1) = 0 := by
      have h63 : (64 : Nat) - 1 = 63 := by norm_num
      rw [h63]
      exact and_two_pow_eq_zero n 63 hbit
    have hc1 : ¬ ((true && decide (n &&& 2 ^ (64 - 1) ≠ 0)) = true) := by
      simp only [Bool.true_and, decide_eq_true_eq, ne_eq, Decidable.not_not]
      exact hand
    have hc2 : ¬ ((if (true : Bool) = true then 2 ^ (w - 1) - 1 else 2 ^ w - 1) < n) := by
      rw [if_pos rfl]
      omega
    unfold BSToBSvalue
    rw [if_neg hc1, if_neg hc2]
  · have hc1 : (true && decide (n &&& 2 ^ (64 - 1) ≠ 0)) = true := by
      simp only [Bool.true_and, decide_eq_true_eq]
      have h63 : (64 : Nat) - 1 = 63 := by norm_num
      rw [h63]
      exact and_two_pow_ne_zero_of_testBit n 63
        (testBit_of_ge 64 (w - 1) n 63 hlo hhi (by omega) (by norm_num))
    unfold BSToBSvalue
    rw [if_pos hc1, if_neg (by decide : ¬ ((!true) = true))]
    rcases eq_or_lt_of_le h64 with heq | hlt
    · subst heq
      rw [if_neg (by omega : ¬ (64 < 64))]
      simp
    · rw [if_pos hlt]
      have hX : (1 : Nat) ≤ 2 ^ (w - 1) := Nat.one_le_two_pow
      have hMe : (2 ^ 64 - 1) - (2 ^ (w - 1) - 1 : Nat) = 2 ^ 64 - 2 ^ (w - 1) := by
        omega
      have hM : n &&& ((2 ^ 64 - 1) - (2 ^ (w - 1) - 1))
          = (2 ^ 64 - 1) - (2 ^ (w - 1) - 1) := by
        rw [hMe]
        apply Nat.eq_of_testBit_eq
        intro i
        rw [Nat.testBit_and, sub_pow_testBit 64 (w - 1) i (by omega)]
        by_cases h3 : (w - 1) ≤ i ∧ i < 64
        · rw [testBit_of_ge 64 (w - 1) n i hlo hhi h3.1 h3.2]
          simp [h3.1, h3.2]
        · rw [not_and_or] at h3
          rcases h3 with h | h <;> simp [h]
      rw [if_neg (fun hc => hc hM)]

/-- Widening a `w`-bit signed field back to 64 bits sign-extends: it
restores the original 64-bit pattern the field was narrowed from. -/
theorem BSToBSvalue_extend (w n : Nat) (h1 : 1 ≤ w) (h64 : w ≤ 64)
    (hcase : n < 2 ^ (w - 1) ∨ (2 ^ 64 - 2 ^ (w - 1) ≤ n ∧ n < 2 ^ 64)) :
    BSToBSvalue 64 true w true (n % 2 ^ w) = n := by
  have hw1 : (2 : Nat) ^ (w - 1) ≤ 2 ^ 63 := Nat.pow_le_pow_right (by omega) (by omega)
  rcases hcase with hpos | ⟨hlo, hhi⟩
  · have hnw : n < 2 ^ w := by
      have : (2 : Nat) ^ (w - 1) ≤ 2 ^ w := Nat.pow_le_pow_right (by omega) (by omega)
      omega
    rw [Nat.mod_eq_of_lt hnw]
    have hbit : n.testBit (w - 1) = false := Nat.testBit_lt_two_pow hpos
    have hc1 : ¬ ((true && decide (n &&& 2 ^ (w - 1) ≠ 0)) = true) := by
      simp only [Bool.true_and, decide_eq_true_eq, ne_eq, Decidable.not_not]
      exact and_two_pow_eq_zero n (w - 1) hbit
    have hc2 : ¬ ((if (true : Bool) = true then 2 ^ (64 - 1) - 1 else 2 ^ 64 - 1) < n) := by
      rw [if_pos rfl]
      have hb : (2 : Nat) ^ (w - 1) ≤ 9223372036854775808 := by
        calc (2 : Nat) ^ (w - 1) ≤ 2 ^ 63 := hw1
        _ = 9223372036854775808 := by norm_num
      have he : (2 : Nat) ^ (64 - 1) = 9223372036854775808 := by norm_num
      omega
    unfold BSToBSvalue
    rw [if_neg hc1, if_neg hc2]
  · have hwpos : (0 : Nat) < 2 ^ w := Nat.pos_pow_of_pos w (by omega)
    have hnb : n.testBit (w - 1) = true :=
      testBit_of_ge 64 (w - 1) n (w - 1) hlo hhi (le_refl _) (by omega)
    have hbit : (n % 2 ^ w).testBit (w - 1) = true := by
      rw [Nat.testBit_mod_two_pow]
      simp [hnb]
      omega
    have hc1 : (true && decide (n % 2 ^ w &&& 2 ^ (w - 1) ≠ 0)) = true := by
      simp only [Bool.true_and, decide_eq_true_eq]
      exact and_two_pow_ne_zero_of_testBit _ (w - 1) hbit
    unfold BSToBSvalue
    rw [if_pos hc1, if_neg (by decide : ¬ ((!true) = true)),
      if_neg (by omega : ¬ (64 < w))]
    have hone : (1 : Nat) ≤ 2 ^ w := Nat.one_le_two_pow
    have hmask : (2 ^ 64 - 1) - (2 ^ w - 1 : Nat) = 2 ^ 64 - 2 ^ w := by
      omega
    rw [hmask]
    apply Nat.eq_of_testBit_eq
    intro i
    rw [Nat.testBit_or, Nat.testBit_mod_two_pow, sub_pow_testBit 64 w i h64]
    by_cases hi : i < w
    · have hni : ¬ (w ≤ i) := by omega
      simp [hi, hni]
    · by_cases hi2 : i < 64
      · have hw : w ≤ i := by omega
        have hti : n.testBit i = true :=
          testBit_of_ge 64 (w - 1) n i hlo hhi (by omega) hi2
        simp [hi, hw, hi2, hti]
      · have hti : n.testBit i = false :=
          Nat.testBit_lt_two_pow
            (lt_of_lt_of_le hhi (Nat.pow_le_pow_right (by omega) (by omega)))
        simp [hi, hi2, hti]

/-- First leg of the round trip: packing the 64-bit pattern of `v` into a
`w`-bit signed field at bit shift `k` of a zeroed buffer writes exactly the
pattern shifted left by `k` over the field's byte span. -/
theorem leg1_core (W w k : Nat) (v : Int) (hW : W = 64 ∨ W = 128)
    (hw1 : 1 ≤ w) (hw64 : w ≤ 64) (hkw : k + w ≤ W)
    (hcase : toUnsigned 64 v < 2 ^ (w - 1)
      ∨ (2 ^ 64 - 2 ^ (w - 1) ≤ toUnsigned 64 v ∧ toUnsigned 64 v < 2 ^ 64)) :
    BSToBS W (fun _ => 0) 0 k w true (int64Mem v) 0 0 64 true
      = writeBytesAt (fun _ => 0) 0 ((w + k + 7) / 8) (toUnsigned 64 v <<< k) := by
  have hW8 : 8 ≤ W := by rcases hW with h | h <;> omega
  have hWle : W ≤ 128 := by rcases hW with h | h <;> omega
  have hRB : readBytesFrom (int64Mem v) 0 8 = toUnsigned 64 v := by
    unfold readBytesFrom
    rw [readBytes_congr (fun i => int64Mem v (0 + i)) (int64Mem v) 8
      (fun i _ => by simp)]
    exact readBytes_int64Mem v
  have hdest : readBytesFrom (fun _ => (0 : Nat)) 0 ((w + k + 7) / 8) = 0 := by
    unfold readBytesFrom
    rw [readBytes_congr _ (fun _ => (0 : Nat)) _ (fun i _ => rfl)]
    exact readBytes_zero_mem _
  rw [BSToBS_eq_write W (fun _ => 0) (int64Mem v) 0 k w 0 0 64 true true hW8 hWle
    hw1 (by omega) (by norm_num) (by omega),
    show (64 + 0 + 7) / 8 = 8 from by norm_num, Nat.shiftRight_zero, hRB,
    Nat.and_pow_two_sub_one_eq_mod, Nat.mod_eq_of_lt (toUnsigned_lt 64 v),
    BSToBSvalue_id w (toUnsigned 64 v) hw1 hw64 hcase, hdest,
    Nat.and_zero, Nat.or_zero]
  have h8nB : 8 * ((w + k + 7) / 8) ≤ W := by
    rcases hW with h | h <;> subst h <;> omega
  exact writeBytesAt_mod_pow _ 0 _ _ W h8nB

/-- Second leg of the round trip: extracting the `w`-bit signed field at
bit shift `k` of the buffer produced by the first leg into a 64-bit signed
destination writes back the original 64-bit pattern. -/
theorem leg2_core (W w k n : Nat) (hW : W = 64 ∨ W = 128)
    (hw1 : 1 ≤ w) (hw64 : w ≤ 64) (hkw : k + w ≤ W)
    (hcase : n < 2 ^ (w - 1) ∨ (2 ^ 64 - 2 ^ (w - 1) ≤ n ∧ n < 2 ^ 64)) :
    BSToBS W (fun _ => 0) 0 0 64 true
        (writeBytesAt (fun _ => 0) 0 ((w + k + 7) / 8) (n <<< k)) 0 k w true
      = writeBytesAt (fun _ => 0) 0 8 n := by
  have hW8 : 8 ≤ W := by rcases hW with h | h <;> omega
  have hWle : W ≤ 128 := by rcases hW with h | h <;> omega
  have hn64 : n < 2 ^ 64 := by
    have h1 : (2 : Nat) ^ (w - 1) ≤ 2 ^ 63 := Nat.pow_le_pow_right (by omega) (by omega)
    have h2 : (2 : Nat) ^ 63 ≤ 2 ^ 64 := Nat.pow_le_pow_right (by omega) (by omega)
    rcases hcase with h | ⟨_, h⟩ <;> omega
  have hnW : n < 2 ^ W := by
    have : (2 : Nat) ^ 64 ≤ 2 ^ W := Nat.pow_le_pow_right (by omega) (by omega)
    omega
  have hdest8 : readBytesFrom (fun _ => (0 : Nat)) 0 8 = 0 := by
    unfold readBytesFrom
    rw [readBytes_congr _ (fun _ => (0 : Nat)) _ (fun i _ => rfl)]
    exact readBytes_zero_mem _
  have hkey : (((n <<< k) % 256 ^ ((w + k + 7) / 8)) >>> k) &&& (2 ^ w - 1)
      = n % 2 ^ w := by
    apply Nat.eq_of_testBit_eq
    intro j
    rw [Nat.testBit_and, Nat.testBit_two_pow_sub_one, Nat.testBit_shiftRight,
      pow256_eq, Nat.testBit_mod_two_pow, Nat.testBit_shiftLeft,
      Nat.testBit_mod_two_pow, Nat.add_sub_cancel_left]
    have hkk : k ≤ k + j := Nat.le_add_right k j
    by_cases hj : j < w
    · have hlt : k + j < 8 * ((w + k + 7) / 8) := by omega
      simp [hj, hlt, hkk]
    · simp [hj]
  rw [BSToBS_eq_write W (fun _ => 0) _ 0 0 64 0 k w true true hW8 hWle
    (by norm_num) (by omega) hw1 hkw,
    show (64 + 0 + 7) / 8 = 8 from by norm_num,
    readBytesFrom_writeBytesAt, hkey,
    BSToBSvalue_extend w n hw1 hw64 hcase,
    Nat.shiftLeft_zero, Nat.mod_eq_of_lt hnW, hdest8, Nat.and_zero, Nat.or_zero]

/-- Dispatch of a `uint8`-granularity `BitSetToBitSet` call to the 64-bit
copy routine: taken when one bit-range end exceeds 32 and both are ≤ 64. -/
theorem BitSetToBitSet_g8_64 (dest src : Nat → Nat)
    (dOff dShift dSize sOff sShift sSize : Nat) (dSig sSig : Bool)
    (hds : dShift < 8) (hss : sShift < 8)
    (h32 : 33 ≤ sShift + sSize ∨ 33 ≤ dShift + dSize)
    (hsE : sShift + sSize ≤ 64) (hdE : dShift + dSize ≤ 64) :
    BitSetToBitSet 8 dest dOff dShift dSize dSig src sOff sShift sSize sSig
      = { ret := true,
          dest := BSToBS 64 dest dOff dShift dSize dSig src sOff sShift sSize sSig,
          dOff := dOff, dShift := (dShift + dSize) % 256,
          sOff := sOff, sShift := (sShift + sSize) % 256 } := by
  have hslt : ¬((8 : Nat) ≤ sShift) := by omega
  have hdlt : ¬((8 : Nat) ≤ dShift) := by omega
  simp only [BitSetToBitSet, if_neg hslt, if_neg hdlt]
  rw [if_neg (fun h => by omega), if_neg (fun h => by omega),
    if_neg (fun h => by omega), if_pos ⟨hsE, hdE, by decide⟩]

/-- Dispatch of a `uint8`-granularity `BitSetToBitSet` call to the 128-bit
copy routine: taken when one bit-range end exceeds 64 and both are ≤ 128. -/
theorem BitSetToBitSet_g8_128 (dest src : Nat → Nat)
    (dOff dShift dSize sOff sShift sSize : Nat) (dSig sSig : Bool)
    (hds : dShift < 8) (hss : sShift < 8)
    (h64 : 65 ≤ sShift + sSize ∨ 65 ≤ dShift + dSize)
    (hsE : sShift + sSize ≤ 128) (hdE : dShift + dSize ≤ 128) :
    BitSetToBitSet 8 dest dOff dShift dSize dSig src sOff sShift sSize sSig
      = { ret := true,
          dest := BSToBS 128 dest dOff dShift dSize dSig src sOff sShift sSize sSig,
          dOff := dOff, dShift := (dShift + dSize) % 256,
          sOff := sOff, sShift := (sShift + sSize) % 256 } := by
  have hslt : ¬((8 : Nat) ≤ sShift) := by omega
  have hdlt : ¬((8 : Nat) ≤ dShift) := by omega
  simp only [BitSetToBitSet, if_neg hslt, if_neg hdlt]
  rw [if_neg (fun h => by omega), if_neg (fun h => by omega),
    if_neg (fun h => by omega), if_neg (fun h => by omega),
    if_pos ⟨hsE, hdE, by decide⟩]

set_option maxRecDepth 4096 in
/-- Claim C1 counterexample: packing the w = 4 bit signed value −3 at bit
offset k = 0 of a zeroed buffer via `IntegerToBitSet` sets buffer bit 4 —
a bit outside [k, k+w) = [0, 4) whose pre-call value was 0 — because the
narrowing branch of `BSToBS` keeps the full sign-extended scratch without
masking it to the destination field before the merge. -/
theorem C1_counterexample :
    bitOfMem (IntegerToBitSet 8 (fun _ => 0) 0 0 4 true (int64Mem (-3)) 64
        true).dest 4 = true
    ∧ bitOfMem (fun _ => (0 : Nat)) 4 = false := by
  decide

/-- Claim C1 (amended): for every bit width w in [1,64], every signed value
v representable in w bits as two's complement, and every bit offset k in
[0,7]: calling `IntegerToBitSet` to pack v into a zero-initialized buffer at
offset k with parameters (w, signed), then calling `BitSetToInteger` with
the same (w, signed) parameters, returns true for both calls and yields v
unchanged; every buffer bit below k and every bit at or beyond the end of
the written byte span 8*⌈(k+w)/8⌉ retains its pre-call value, and when
v ≥ 0 every buffer bit outside [k, k+w) retains its pre-call value. (For
v < 0 the bits of [k+w, 8*⌈(k+w)/8⌉) are overwritten with the sign
extension, as `C1_counterexample` shows, so the unrestricted frame property
of the original claim fails.) -/
theorem C1_roundTrip_amended (w k : Nat) (v : Int)
    (hw1 : 1 ≤ w) (hw64 : w ≤ 64) (hk : k ≤ 7)
    (hv1 : -((2 : Int) ^ (w - 1)) ≤ v) (hv2 : v < (2 : Int) ^ (w - 1)) :
    (IntegerToBitSet 8 (fun _ => 0) 0 k w true (int64Mem v) 64 true).ret = true
    ∧ (BitSetToInteger 8 (fun _ => 0) 64 true
        (IntegerToBitSet 8 (fun _ => 0) 0 k w true (int64Mem v) 64 true).dest
        0 k w true).ret = true
    ∧ toSigned 64 (readBytes (BitSetToInteger 8 (fun _ => 0) 64 true
        (IntegerToBitSet 8 (fun _ => 0) 0 k w true (int64Mem v) 64 true).dest
        0 k w true).dest 8) = v
    ∧ (∀ p, p < k ∨ 8 * ((w + k + 7) / 8) ≤ p →
        bitOfMem (IntegerToBitSet 8 (fun _ => 0) 0 k w true (int64Mem v) 64
          true).dest p = false)
    ∧ (0 ≤ v → ∀ p, p < k ∨ k + w ≤ p →
        bitOfMem (IntegerToBitSet 8 (fun _ => 0) 0 k w true (int64Mem v) 64
          true).dest p = false) := by
  have hcast1 : ((2 : Int) ^ (w - 1)) = ((2 ^ (w - 1) : Nat) : Int) := by
    push_cast
    ring
  have hcast64 : ((2 : Int) ^ 64) = ((2 ^ 64 : Nat) : Int) := by
    push_cast
  have hle : (2 : Nat) ^ (w - 1) ≤ 2 ^ 64 := Nat.pow_le_pow_right (by omega) (by omega)
  have hposn : 0 ≤ v → toUnsigned 64 v < 2 ^ (w - 1) := by
    intro hpos
    have hv64 : v < (2 : Int) ^ 64 := by
      rw [hcast64]
      calc v < ((2 ^ (w - 1) : Nat) : Int) := by rw [← hcast1]; exact hv2
      _ ≤ ((2 ^ 64 : Nat) : Int) := by exact_mod_cast hle
    rw [toUnsigned_of_nonneg 64 v hpos hv64]
    have h2 : (v.toNat : Int) < ((2 ^ (w - 1) : Nat) : Int) := by
      rw [Int.toNat_of_nonneg hpos, ← hcast1]
      exact hv2
    exact_mod_cast h2
  have hcase : toUnsigned 64 v < 2 ^ (w - 1)
      ∨ (2 ^ 64 - 2 ^ (w - 1) ≤ toUnsigned 64 v ∧ toUnsigned 64 v < 2 ^ 64) := by
    rcases le_or_lt 0 v with hpos | hneg
    · exact Or.inl (hposn hpos)
    · right
      have hge64 : -((2 : Int) ^ 64) ≤ v := by
        have h1 : -((2 : Int) ^ 64) ≤ -((2 : Int) ^ (w - 1)) := by
          apply neg_le_neg
          rw [hcast1, hcast64]
          exact_mod_cast hle
        exact h1.trans hv1
      have hn := toUnsigned_of_neg 64 v hneg hge64
      rw [hcast64] at hn
      have hv1' : -(((2 ^ (w - 1) : Nat) : Int)) ≤ v := by
        rw [← hcast1]
        exact hv1
      have hv2' : v < ((2 ^ (w - 1) : Nat) : Int) := by
        rw [← hcast1]
        exact hv2
      have hle' : ((2 ^ (w - 1) : Nat) : Int) ≤ ((2 ^ 64 : Nat) : Int) := by
        exact_mod_cast hle
      constructor <;> omega
  have hres1 : IntegerToBitSet 8 (fun _ => 0) 0 k w true (int64Mem v) 64 true
      = { ret := true,
          dest := writeBytesAt (fun _ => 0) 0 ((w + k + 7) / 8)
            (toUnsigned 64 v <<< k),
          dOff := 0, dShift := (k + w) % 256, sOff := 0,
          sShift := (0 + 64) % 256 } := by
    rcases le_or_lt (k + w) 64 with hsmall | hbig
    · unfold IntegerToBitSet
      rw [BitSetToBitSet_g8_64 _ _ 0 k w 0 0 64 true true (by omega) (by omega)
        (Or.inl (by omega)) (by omega) (by omega),
        leg1_core 64 w k v (Or.inl rfl) hw1 hw64 (by omega) hcase]
    · unfold IntegerToBitSet
      rw [BitSetToBitSet_g8_128 _ _ 0 k w 0 0 64 true true (by omega) (by omega)
        (Or.inr (by omega)) (by omega) (by omega),
        leg1_core 128 w k v (Or.inr rfl) hw1 hw64 (by omega) hcase]
  have hres2 : BitSetToInteger 8 (fun _ => 0) 64 true
      (writeBytesAt (fun _ => 0) 0 ((w + k + 7) / 8) (toUnsigned 64 v <<< k))
      0 k w true
      = { ret := true, dest := writeBytesAt (fun _ => 0) 0 8 (toUnsigned 64 v),
          dOff := 0, dShift := (0 + 64) % 256, sOff := 0,
          sShift := (k + w) % 256 } := by
    rcases le_or_lt (k + w) 64 with hsmall | hbig
    · unfold BitSetToInteger
      rw [BitSetToBitSet_g8_64 _ _ 0 0 64 0 k w true true (by omega) (by omega)
        (Or.inr (by omega)) (by omega) (by omega),
        leg2_core 64 w k (toUnsigned 64 v) (Or.inl rfl) hw1 hw64 (by omega) hcase]
    · unfold BitSetToInteger
      rw [BitSetToBitSet_g8_128 _ _ 0 0 64 0 k w true true (by omega) (by omega)
        (Or.inl (by omega)) (by omega) (by omega),
        leg2_core 128 w k (toUnsigned 64 v) (Or.inr rfl) hw1 hw64 (by omega) hcase]
  have hz : ∀ p, bitOfMem (fun _ => (0 : Nat)) p = false := by
    intro p
    unfold bitOfMem
    exact Nat.zero_testBit _
  refine ⟨?_, ?_, ?_, ?_, ?_⟩
  · simp only [hres1]
  · simp only [hres1, hres2]
  · simp only [hres1, hres2]
    have hr : readBytes (writeBytesAt (fun _ => 0) 0 8 (toUnsigned 64 v)) 8
        = toUnsigned 64 v := by
      have h1 : readBytes (writeBytesAt (fun _ => 0) 0 8 (toUnsigned 64 v)) 8
          = readBytesFrom (writeBytesAt (fun _ => 0) 0 8 (toUnsigned 64 v)) 0 8 := by
        unfold readBytesFrom
        exact readBytes_congr _ _ 8 (fun i _ => by simp)
      rw [h1, readBytesFrom_writeBytesAt,
        show (256 : Nat) ^ 8 = 2 ^ 64 from by norm_num,
        Nat.mod_eq_of_lt (toUnsigned_lt 64 v)]
    rw [hr]
    apply toSigned_toUnsigned 64 v (by norm_num)
    · have hI : ((2 : Int) ^ (w - 1)) ≤ 2 ^ (64 - 1) := by
        have hN : (2 : Nat) ^ (w - 1) ≤ 2 ^ (64 - 1) :=
          Nat.pow_le_pow_right (by omega) (by omega)
        exact_mod_cast hN
      linarith
    · have hI : ((2 : Int) ^ (w - 1)) ≤ 2 ^ (64 - 1) := by
        have hN : (2 : Nat) ^ (w - 1) ≤ 2 ^ (64 - 1) :=
          Nat.pow_le_pow_right (by omega) (by omega)
        exact_mod_cast hN
      linarith
  · simp only [hres1]
    intro p hp
    rw [bitOfMem_writeBytesAt_zero]
    rcases hp with hp | hp
    · by_cases hlt : p < 8 * ((w + k + 7) / 8)
      · rw [if_pos hlt, Nat.testBit_shiftLeft]
        simp [show ¬ (k ≤ p) from by omega]
      · rw [if_neg hlt]
        exact hz p
    · rw [if_neg (by omega)]
      exact hz p
  · simp only [hres1]
    intro hv0 p hp
    rw [bitOfMem_writeBytesAt_zero]
    have hnlt : toUnsigned 64 v < 2 ^ (w - 1) := hposn hv0
    rcases hp with hp | hp
    · by_cases hlt : p < 8 * ((w + k + 7) / 8)
      · rw [if_pos hlt, Nat.testBit_shiftLeft]
        simp [show ¬ (k ≤ p) from by omega]
      · rw [if_neg hlt]
        exact hz p
    · by_cases hlt : p < 8 * ((w + k + 7) / 8)
      · rw [if_pos hlt, Nat.testBit_shiftLeft]
        have hbit : (toUnsigned 64 v).testBit (p - k) = false := by
          apply Nat.testBit_lt_two_pow
          calc toUnsigned 64 v < 2 ^ (w - 1) := hnlt
          _ ≤ 2 ^ (p - k) := Nat.pow_le_pow_right (by omega) (by omega)
        simp [hbit]
      · rw [if_neg hlt]
        exact hz p

theorem C1_witness :
    (IntegerToBitSet 8 (fun _ => 0) 0 1 4 true (int64Mem (-3)) 64 true).ret = true
    ∧ (BitSetToInteger 8 (fun _ => 0) 64 true
        (IntegerToBitSet 8 (fun _ => 0) 0 1 4 true (int64Mem (-3)) 64 true).dest
        0 1 4 true).ret = true
    ∧ toSigned 64 (readBytes (BitSetToInteger 8 (fun _ => 0) 64 true
        (IntegerToBitSet 8 (fun _ => 0) 0 1 4 true (int64Mem (-3)) 64 true).dest
        0 1 4 true).dest 8) = -3
    ∧ (∀ p, p < 1 ∨ 8 * ((4 + 1 + 7) / 8) ≤ p →
        bitOfMem (IntegerToBitSet 8 (fun _ => 0) 0 1 4 true (int64Mem (-3)) 64
          true).dest p = false)
    ∧ (0 ≤ (-3 : Int) → ∀ p, p < 1 ∨ 1 + 4 ≤ p →
        bitOfMem (IntegerToBitSet 8 (fun _ => 0) 0 1 4 true (int64Mem (-3)) 64
          true).dest p = false) :=
  C1_roundTrip_amended 4 1 (-3) (by norm_num) (by norm_num) (by norm_num)
    (by norm_num) (by norm_num)
